import Mathlib

/-!
# mac-port-bar: discovery / probe / reconcile core

A shallow embedding of `main.go` and theorems about it.

Conventions of the embedding.

* A Go `string` holding text is a `List Char` (`Str`); the text is taken to be
  valid UTF-8, so a byte index of an ASCII byte and the character index agree.
* Go `int` is `Int` (64-bit platform; no arithmetic on it can overflow here).
* Everything the program obtains from outside (the `lsof` runs, the HTTP probe,
  the order in which goroutines finish) is an explicit argument.
* A call that panics returns nothing: its result is `none`.
* Library calls are embedded by what they compute: `strings.Fields`,
  `strings.LastIndex`, `strings.Contains`, `bufio.Scanner` with `ScanLines`,
  `strconv.Atoi`; `sort.Slice` by its contract (see `SliceSorter`).
-/

namespace MacPortBar

/-- A Go `string`, as the list of its characters. -/
abbrev Str := List Char

/-! ## Library functions used by `checkHTTPServer` -/

/-- The library function `strings.Contains(s, substr)`. -/
def stringsContains : Str → Str → Bool
  | [], substr => substr.isEmpty
  | c :: cs, substr => substr.isPrefixOf (c :: cs) || stringsContains cs substr

/-! ## The classifier: `ignoreApps`, `httpCache`, `checkHTTPServer` -/

/-- The keys of `var ignoreApps = map[string]bool{...}`, all mapped to `true`. -/
def ignoreAppsKeys : List Str :=
  [ "rapportd".toList, "ControlCe".toList, "sharingd".toList, "coreaudio".toList,
    "kdc".toList, "IdentityS".toList, "systemmd".toList, "loginwind".toList,
    "AirPlayUX".toList, "Reminders".toList, "Siri".toList, "assistant".toList ]

/-- The lookup `ignoreApps[command]`: `true` for a key of the map, the zero
value `false` otherwise. -/
def ignoreApps (command : Str) : Bool :=
  decide (command ∈ ignoreAppsKeys)

/-- The type of `httpCache map[string]int`: a finite map, read as a partial
function. -/
abbrev Cache := Str → Option Int

/-- The assignment `httpCache[key] = status`. -/
def Cache.insert (cache : Cache) (key : Str) (status : Int) : Cache :=
  fun k => if k = key then some status else cache k

/-- What `client.Do(req)` hands back for a request: `err == nil` with the
response's status code, or an error with its message `err.Error()`. -/
inductive ProbeResult where
  | response (statusCode : Int)
  | failure (message : Str)
  deriving DecidableEq, Repr

/-- The observable steps of one `checkHTTPServer` call, in program order. -/
inductive Effect where
  | cacheRead (key : Str)
  | probe (port : Str)
  | cacheWrite (key : Str) (status : Int)
  deriving DecidableEq, Repr

/-- The constant `http.StatusForbidden`. -/
def statusForbidden : Int := 403

/-- The constant `http.StatusUnauthorized`. -/
def statusUnauthorized : Int := 401

/-- The first error text `checkHTTPServer` looks for. -/
def msgMalformed : Str := "malformed HTTP response".toList

/-- The second error text `checkHTTPServer` looks for. -/
def msgHTTPS : Str := "server gave HTTP response to HTTPS client".toList

/-- Lines 56-68 of `main.go`: the status computed from the probe's outcome. -/
def classifyProbe : ProbeResult → Int
  | .response statusCode =>
      if statusCode ≠ statusForbidden ∧ statusCode ≠ statusUnauthorized then
        (if statusCode = 0 then 200 else statusCode)
      else 0
  | .failure message =>
      if stringsContains message msgMalformed || stringsContains message msgHTTPS then 200
      else 0

/-- The cache key `pid + ":" + port`. -/
def cacheKey (pid port : Str) : Str := pid ++ ":".toList ++ port

/-- The result of a `checkHTTPServer` call: the returned status, the cache
afterwards and the steps taken. -/
structure CheckResult where
  status : Int
  cache : Cache
  trace : List Effect

/-- The function `func checkHTTPServer(pid, command, port string) int`;
`cache` is `httpCache` on entry. `doProbe port` stands for lines 52-54 run
now: `none` when `http.NewRequest` builds no request for
`http://localhost:<port>` (its error is discarded and `req` is nil), else the
outcome of `client.Do(req)`. With a nil request `client.Do` panics: the call
does not return, nothing is written to the cache and the process dies; that
is the result `none`. -/
def checkHTTPServer (doProbe : Str → Option ProbeResult) (cache : Cache)
    (pid command port : Str) : Option CheckResult :=
  if ignoreApps command then
    some { status := 0, cache := cache, trace := [] }
  else
    let key := cacheKey pid port
    match cache key with
    | some status => some { status := status, cache := cache, trace := [.cacheRead key] }
    | none =>
      match doProbe port with
      | none => none
      | some outcome =>
        let status := classifyProbe outcome
        some { status := status
               cache := cache.insert key status
               trace := [.cacheRead key, .probe port, .cacheWrite key status] }

/-- The number of probes among the steps taken. -/
def probeCount (trace : List Effect) : Nat :=
  (trace.filter (fun e => match e with | .probe _ => true | _ => false)).length

/-! ## Library functions used by `parseLsof` -/

/-- The predicate `unicode.IsSpace`: the Latin-1 cases of its switch and the
`White_Space` ranges above Latin-1. -/
def isSpace (c : Char) : Bool :=
  let r := c.toNat
  r = 0x09 || r = 0x0A || r = 0x0B || r = 0x0C || r = 0x0D || r = 0x20
    || r = 0x85 || r = 0xA0 || r = 0x1680 || (0x2000 ≤ r && r ≤ 0x200A)
    || r = 0x2028 || r = 0x2029 || r = 0x202F || r = 0x205F || r = 0x3000

/-- Worker of `stringsFields`: `cur` is the field being read, reversed. -/
def stringsFieldsAux : Str → Str → List Str
  | [], cur => if cur.isEmpty then [] else [cur.reverse]
  | c :: cs, cur =>
    if isSpace c then
      (if cur.isEmpty then stringsFieldsAux cs [] else cur.reverse :: stringsFieldsAux cs [])
    else stringsFieldsAux cs (c :: cur)

/-- The library function `strings.Fields(s)`: the maximal runs of non-space
characters. -/
def stringsFields (s : Str) : List Str := stringsFieldsAux s []

/-- Worker of `stringsLastIndex`: the index of the last `c` in `s`, where `s`
starts at position `i`. -/
def stringsLastIndexAux (c : Char) : Str → Nat → Option Nat
  | [], _ => none
  | x :: xs, i =>
    match stringsLastIndexAux c xs (i + 1) with
    | some j => some j
    | none => if x = c then some i else none

/-- The library function `strings.LastIndex(s, string(c))` for a one-character
substring, with `none` for `-1`. -/
def stringsLastIndex (s : Str) (c : Char) : Option Nat := stringsLastIndexAux c s 0

/-- Worker of `scanTokens`: `cur` is the line being read, reversed. -/
def scanTokensAux : Str → Str → List Str
  | [], cur => if cur.isEmpty then [] else [cur.reverse]
  | c :: cs, cur =>
    if c = '\n' then cur.reverse :: scanTokensAux cs [] else scanTokensAux cs (c :: cur)

/-- The lines `bufio.ScanLines` cuts a text into, before the carriage return is
dropped: the text is cut after every newline, and what follows the last
newline is a line if it is not empty. -/
def scanTokens (s : Str) : List Str := scanTokensAux s []

/-- The helper `dropCR` of `bufio.ScanLines`: one trailing carriage return is
removed. -/
def dropCR (line : Str) : Str :=
  if line.getLast? = some '\r' then line.dropLast else line

/-- The length of a string in bytes (`len(s)`). -/
def byteLen (s : Str) : Nat := (s.map Char.utf8Size).sum

/-- The constant `bufio.MaxScanTokenSize`. -/
def maxScanTokenSize : Nat := 64 * 1024

/-- The error `bufio.ErrTooLong`, the only one a `bufio.Scanner` over a
`strings.Reader` reports. -/
inductive ScanError where
  | errTooLong
  deriving DecidableEq, Repr

/-- The outcome of the digit loop of `strconv.ParseUint(s, 10, 64)`. -/
inductive UintResult where
  | value (n : Nat)
  | syntaxError
  | rangeError
  deriving DecidableEq, Repr

/-- The digit loop of `strconv.ParseUint(s, 10, 64)`, `n` being the value read
so far: a character that is not a decimal digit is a syntax error, a value
above `2^64 - 1` a range error, whichever comes first. -/
def parseUintLoop : Str → Nat → UintResult
  | [], n => .value n
  | c :: cs, n =>
    if '0' ≤ c ∧ c ≤ '9' then
      let d := c.toNat - '0'.toNat
      if n ≥ (2 ^ 64 - 1) / 10 + 1 then .rangeError
      else if n * 10 + d > 2 ^ 64 - 1 then .rangeError
      else parseUintLoop cs (n * 10 + d)
    else .syntaxError

/-- The value of `strconv.ParseUint(s, 10, 64)`: `2^64 - 1` on a range error. -/
def parseUint (s : Str) : UintResult :=
  if s.isEmpty then .syntaxError else parseUintLoop s 0

/-- The value of `n, _ := strconv.Atoi(s)` with 64-bit `int`: `0` on a syntax
error, the nearest bound of the `int` range on a range error. (`Atoi` is
`ParseInt(s, 10, 0)`; its fast path for short strings computes the same.) -/
def strconvAtoi (s : Str) : Int :=
  match s with
  | [] => 0
  | c :: cs =>
    let neg := decide (c = '-')
    let digits := if c = '+' ∨ c = '-' then cs else c :: cs
    match parseUint digits with
    | .syntaxError => 0
    | .rangeError => if neg then -(2 ^ 63) else 2 ^ 63 - 1
    | .value un =>
      if !neg && decide (un ≥ 2 ^ 63) then 2 ^ 63 - 1
      else if neg && decide (un > 2 ^ 63) then -(2 ^ 63)
      else if neg then -(un : Int) else (un : Int)

/-! ## Records and `parseLsof` -/

/-- The record `type Process struct`. -/
structure Process where
  PID : Str
  Command : Str
  Port : Str
  PWD : Str
  StatusCode : Int
  deriving DecidableEq, Repr

/-- The comparison both `sort.Slice` calls pass: `pi < pj` for the two ports
read by `strconv.Atoi`. -/
def portLess (a b : Process) : Bool :=
  decide (strconvAtoi a.Port < strconvAtoi b.Port)

/-- What `sort.Slice` asks of its `less` ("Less must describe a transitive
ordering"): a strict weak ordering. -/
structure StrictWeak {α : Type} (less : α → α → Bool) : Prop where
  irrefl : ∀ a, less a a = false
  trans : ∀ a b c, less a b = true → less b c = true → less a c = true
  negTrans : ∀ a b c, less a b = false → less b c = false → less a c = false

/-- The contract of `sort.Slice(x, less)`: the slice is rearranged (`perm`) so
that no element is `less` than one before it (`sorted`), when `less` is a
strict weak ordering. The sort is not stable, and which of the conforming
rearrangements is produced is left to the implementation. -/
structure SliceSorter where
  sortSlice : (Process → Process → Bool) → List Process → List Process
  perm : ∀ less xs, (sortSlice less xs).Perm xs
  sorted : ∀ less xs, StrictWeak less →
    (sortSlice less xs).Pairwise (fun a b => less b a = false)

/-- The function `getPwdForPid`. `lsofCwd pid` is the standard output of
`lsof -p pid -a -d cwd -F n`, or `none` when running it failed. -/
def getPwdForPid (lsofCwd : Str → Option Str) (pid : Str) : Str :=
  match lsofCwd pid with
  | none => []
  | some out =>
    match (out.splitOn '\n').find? (fun line => "n".toList.isPrefixOf line) with
    | some line => line.drop 1
    | none => []

/-- The body of the scan loop of `parseLsof` (lines 288-314), as the change it
makes to `procs` for one line. -/
def parseLsofLine (lsofCwd : Str → Option Str) (procs : List Process) (line : Str) :
    List Process :=
  let fields := stringsFields line
  if fields.length < 9 then procs
  else
    let command := fields.getD 0 []
    let pid := fields.getD 1 []
    let node := fields.getD 8 []
    match stringsLastIndex node ':' with
    | none => procs
    | some portIdx =>
      let port := node.drop (portIdx + 1)
      let pwd := getPwdForPid lsofCwd pid
      procs ++ [{ PID := pid, Command := command, Port := port, PWD := pwd, StatusCode := 0 }]

/-- The function `parseLsof`. The scanner delivers the lines of `output` one by
one; a line of `maxScanTokenSize` bytes or more makes it stop with
`ErrTooLong`, which `parseLsof` returns as its error (the records that
accompany a non-nil error are discarded by the caller and not modelled). -/
def parseLsof (S : SliceSorter) (lsofCwd : Str → Option Str) (output : Str) :
    Except ScanError (List Process) :=
  let tokens := scanTokens output
  if tokens.any (fun t => decide (maxScanTokenSize ≤ byteLen t)) then .error .errTooLong
  else
    let lines := (tokens.map dropCR).drop 1
    let procs := lines.foldl (parseLsofLine lsofCwd) []
    .ok (S.sortSlice portLess procs)

/-! ## `getOpenPorts` -/

/-- How `cmd.Run()` of the `lsof` enumeration ended, with what it wrote to
`out`: `err == nil`, an `*exec.ExitError` with its exit code, or another error. -/
inductive RunResult where
  | success (out : Str)
  | exitError (exitCode : Int) (out : Str)
  | otherError (out : Str)
  deriving DecidableEq, Repr

/-- The non-nil errors `getOpenPorts` returns. -/
inductive PortsError where
  | run
  | scan (e : ScanError)
  deriving DecidableEq, Repr

/-- The order in which the goroutines of `getOpenPorts` reach
`filtered = append(filtered, proc)`: some rearrangement of the records they
append. -/
structure Interleaving where
  arrange : List Process → List Process
  perm : ∀ xs, (arrange xs).Perm xs

/-- What the goroutine of one record meets: the contents of `httpCache` when it
reads it, and what lines 52-54 do when it reaches them. -/
structure GoroutineView where
  cache : Cache
  doProbe : Str → Option ProbeResult

/-- The value `status := checkHTTPServer(proc.PID, proc.Command, proc.Port)`
in the goroutine of the record `proc` at index `i`; `none` when the call
panics. -/
def goroutineStatus (view : Nat → GoroutineView) (i : Nat) (proc : Process) : Option Int :=
  (checkHTTPServer (view i).doProbe (view i).cache proc.PID proc.Command proc.Port).map
    (fun r => r.status)

/-- The goroutines launched by the loop of lines 250-265, the one for the
record at index `i` first. The result lists, in launch order, what the
goroutines append to `filtered`; it is `none` when the call of one of them
panics, which ends the process. -/
def launchFrom (view : Nat → GoroutineView) : Nat → List Process → Option (List Process)
  | _, [] => some []
  | i, proc :: rest =>
    match goroutineStatus view i proc, launchFrom view (i + 1) rest with
    | some status, some appended =>
      if status > 0 then some ({ proc with StatusCode := status } :: appended)
      else some appended
    | _, _ => none

/-- Lines 245-275 of `getOpenPorts`: the concurrent filter, `wg.Wait()` and the
second `sort.Slice`; `none` when a goroutine panics. -/
def filterServers (S : SliceSorter) (I : Interleaving) (view : Nat → GoroutineView)
    (procs : List Process) : Option (List Process) :=
  match launchFrom view 0 procs with
  | none => none
  | some appended =>
    let filtered := I.arrange appended
    some (S.sortSlice portLess filtered)

/-- The function `getOpenPorts`; `run` is how the `lsof` enumeration ended.
The result is `none` when the process dies in a goroutine's panic, else what
the function returns. -/
def getOpenPorts (S : SliceSorter) (I : Interleaving) (lsofCwd : Str → Option Str)
    (view : Nat → GoroutineView) (run : RunResult) :
    Option (Except PortsError (List Process)) :=
  match run with
  | .exitError exitCode out =>
    if exitCode = 1 ∧ byteLen out = 0 then some (.ok []) else some (.error .run)
  | .otherError _ => some (.error .run)
  | .success out =>
    match parseLsof S lsofCwd out with
    | .error e => some (.error (.scan e))
    | .ok procs =>
      match filterServers S I view procs with
      | none => none
      | some filtered => some (.ok filtered)

/-! ## The menu: `updateMenu` -/

/-- A `systray.MenuItem`, as far as the program acts on it: the identity the
toolkit gives it, its texts, whether it is disabled, whether it is hidden. -/
structure MenuItem where
  id : Nat
  title : Str
  tooltip : Str
  disabled : Bool
  hidden : Bool
  deriving DecidableEq, Repr

/-- The method `SetTitle`. -/
def MenuItem.SetTitle (item : MenuItem) (title : Str) : MenuItem := { item with title := title }

/-- The method `Enable`. -/
def MenuItem.Enable (item : MenuItem) : MenuItem := { item with disabled := false }

/-- The method `Disable`. -/
def MenuItem.Disable (item : MenuItem) : MenuItem := { item with disabled := true }

/-- The method `Show`. -/
def MenuItem.Show (item : MenuItem) : MenuItem := { item with hidden := false }

/-- The method `Hide`. -/
def MenuItem.Hide (item : MenuItem) : MenuItem := { item with hidden := true }

/-- The record `type ProcessMenuItem struct`. -/
structure ProcessMenuItem where
  Parent : MenuItem
  Open : MenuItem
  Copy : MenuItem
  Stop : MenuItem
  Proc : Process
  deriving DecidableEq, Repr

/-- The state `updateMenu` works on: the global `currentMenu` and the
toolkit's counter of item identities. -/
structure Tray where
  currentID : Nat
  currentMenu : List ProcessMenuItem
  deriving DecidableEq, Repr

/-- The toolkit's `AddMenuItem` and `AddSubMenuItem`: a new item, enabled and
shown, with the next identity. -/
def addMenuItem (currentID : Nat) (title tooltip : Str) : MenuItem :=
  { id := currentID + 1, title := title, tooltip := tooltip, disabled := false, hidden := false }

/-- The zero value `Process{}`. -/
def Process.zero : Process :=
  { PID := [], Command := [], Port := [], PWD := [], StatusCode := 0 }

/-- The separator record `Process{PID: "SEP", Port: "0"}`. -/
def separator : Process :=
  { PID := "SEP".toList, Command := [], Port := "0".toList, PWD := [], StatusCode := 0 }

/-- One pass of the loop body of lines 136-142. -/
def groupStep (groups : List Process × List Process) (p : Process) :
    List Process × List Process :=
  if p.StatusCode ≥ 400 then (groups.1, groups.2 ++ [p]) else (groups.1 ++ [p], groups.2)

/-- Lines 132-148 of `updateMenu`: `allSortedProcs`. -/
def allSortedProcs (procs : List Process) : List Process :=
  let groups := procs.foldl groupStep ([], [])
  let normalProcs := groups.1
  let errorProcs := groups.2
  if errorProcs.length > 0 then (normalProcs ++ [separator]) ++ errorProcs else normalProcs

/-- The body of the loop of lines 155-188: four new items and a new slot
appended to `currentMenu`. -/
def addSlot (t : Tray) : Tray :=
  let parent := addMenuItem t.currentID [] []
  let openItem := addMenuItem (t.currentID + 1) "Open in Browser".toList
    "Open this port in your default browser".toList
  let copyItem := addMenuItem (t.currentID + 2) "Copy URL".toList
    "Copy the localhost URL to clipboard".toList
  let stopItem := addMenuItem (t.currentID + 3) "Stop Process".toList
    "Force quit this process".toList
  let pmi : ProcessMenuItem :=
    { Parent := parent, Open := openItem, Copy := copyItem, Stop := stopItem, Proc := Process.zero }
  { currentID := t.currentID + 4, currentMenu := t.currentMenu ++ [pmi] }

/-- The loop `for len(currentMenu) < len(allSortedProcs)` of lines 155-188,
run for at most `fuel` passes. -/
def ensureSlotsLoop (need : Nat) : Nat → Tray → Tray
  | 0, t => t
  | fuel + 1, t =>
    if t.currentMenu.length < need then ensureSlotsLoop need fuel (addSlot t) else t

/-- Lines 154-188: the loop run to its end (`need` passes are enough). -/
def ensureSlots (need : Nat) (t : Tray) : Tray := ensureSlotsLoop need need t

/-- The title of the separator. -/
def separatorTitle : Str := "───────────────".toList

/-- The warning marker that starts the title of a failing candidate: U+26A0,
U+FE0F and a space. -/
def warningMarker : Str := "\u26a0\ufe0f ".toList

/-- The format `%d` of `fmt.Sprintf`. -/
def fmtInt (n : Int) : Str :=
  if n < 0 then '-' :: Nat.toDigits 10 n.natAbs else Nat.toDigits 10 n.toNat

/-- Lines 203-209: the title of a slot bound to `p`. -/
def slotTitle (p : Process) : Str :=
  let title := "[".toList ++ p.Port ++ "] ".toList ++ p.Command
  let title := if p.PWD ≠ [] then title ++ (" \x7bin ".toList ++ p.PWD ++ "\x7d".toList) else title
  if p.StatusCode ≥ 400 then
    warningMarker ++ title ++ (" (HTTP ".toList ++ fmtInt p.StatusCode ++ ")".toList)
  else title

/-- Lines 193-217: the slot at an index below `len(allSortedProcs)` is bound
to the record `p` found there. -/
def bindSlot (p : Process) (slot : ProcessMenuItem) : ProcessMenuItem :=
  let slot := { slot with Proc := p }
  let slot :=
    if p.PID = "SEP".toList then
      { slot with
        Parent := (slot.Parent.SetTitle separatorTitle).Disable
        Open := slot.Open.Hide
        Copy := slot.Copy.Hide
        Stop := slot.Stop.Hide }
    else
      { slot with
        Parent := (slot.Parent.SetTitle (slotTitle p)).Enable
        Open := slot.Open.Show
        Copy := slot.Copy.Show
        Stop := slot.Stop.Show }
  { slot with Parent := slot.Parent.Show }

/-- The body of the loop of lines 191-222 for the slot at index `i`. -/
def updateSlot (all : List Process) (i : Nat) (slot : ProcessMenuItem) : ProcessMenuItem :=
  if h : i < all.length then bindSlot (all.get ⟨i, h⟩) slot
  else { slot with Parent := slot.Parent.Hide }

/-- The loop `for i, slot := range currentMenu` of lines 191-222, from index
`i` on. -/
def updateSlotsFrom (all : List Process) : Nat → List ProcessMenuItem → List ProcessMenuItem
  | _, [] => []
  | i, slot :: rest => updateSlot all i slot :: updateSlotsFrom all (i + 1) rest

/-- The function `updateMenu`; `ports` is what its call of `getOpenPorts`
returns (when the process dies in that call there is nothing to update). -/
def updateMenu (ports : Except PortsError (List Process)) (t : Tray) : Tray :=
  match ports with
  | .error _ => t
  | .ok procs =>
    let all := allSortedProcs procs
    let t := ensureSlots all.length t
    { t with currentMenu := updateSlotsFrom all 0 t.currentMenu }

/-- The `updateMenu` calls of the poll loop, one per element of `cycles`, each
with what `getOpenPorts` returns in that cycle. -/
def pollLoop (cycles : List (Except PortsError (List Process))) (t : Tray) : Tray :=
  cycles.foldl (fun t ports => updateMenu ports t) t

/-! ## A conforming `sort.Slice`: insertion sort -/

/-- The inner loop of Go's `insertionSortLessFunc`
(`for j := i; j > a && less(j, j-1); j--` swapping `j` and `j-1`): `x` moves
left past every element it is less than. The sorted part is held reversed,
its last element first. -/
def insertionStep (less : Process → Process → Bool) (x : Process) :
    List Process → List Process
  | [] => [x]
  | y :: ys => if less x y then y :: insertionStep less x ys else x :: y :: ys

/-- Go's `insertionSortLessFunc`, which `sort.Slice` runs on a slice of at most
12 elements. -/
def insertionSortFunc (less : Process → Process → Bool) (xs : List Process) :
    List Process :=
  (xs.foldl (fun sortedRev x => insertionStep less x sortedRev) []).reverse

/-- Insertion sort meets the contract of `sort.Slice`. -/
def insertionSorter : SliceSorter where
  sortSlice := insertionSortFunc
  perm := by
    intro less xs
    have step : ∀ (x : Process) (ys : List Process),
        (insertionStep less x ys).Perm (x :: ys) := by
      intro x ys
      induction ys with
      | nil => exact List.Perm.refl _
      | cons y ys ih =>
        unfold insertionStep
        split
        · exact ((List.Perm.cons y ih).trans (List.Perm.swap x y ys))
        · exact List.Perm.refl _
    have fold : ∀ (zs acc : List Process),
        (zs.foldl (fun sortedRev x => insertionStep less x sortedRev) acc).Perm
          (zs.reverse ++ acc) := by
      intro zs
      induction zs with
      | nil => intro acc; simp
      | cons x zs ih =>
        intro acc
        simp only [List.foldl_cons, List.reverse_cons, List.append_assoc,
          List.singleton_append]
        exact (ih _).trans (List.Perm.append_left _ (step x acc))
    unfold insertionSortFunc
    refine (List.reverse_perm _).trans ?_
    have h := fold xs []
    simp only [List.append_nil] at h
    exact h.trans (List.reverse_perm xs)
  sorted := by
    intro less xs hl
    have step : ∀ (x : Process) (ys : List Process),
        (insertionStep less x ys).Perm (x :: ys) := by
      intro x ys
      induction ys with
      | nil => exact List.Perm.refl _
      | cons y ys ih =>
        unfold insertionStep
        split
        · exact ((List.Perm.cons y ih).trans (List.Perm.swap x y ys))
        · exact List.Perm.refl _
    have insert : ∀ (x : Process) (ys : List Process),
        ys.Pairwise (fun a b => less a b = false) →
        (insertionStep less x ys).Pairwise (fun a b => less a b = false) := by
      intro x ys
      induction ys with
      | nil => intro _; simp [insertionStep]
      | cons y ys ih =>
        intro h
        have hy := List.pairwise_cons.mp h
        unfold insertionStep
        split
        · rename_i hxy
          refine List.pairwise_cons.mpr ⟨?_, ih hy.2⟩
          intro z hz
          rcases List.mem_cons.mp ((step x ys).mem_iff.mp hz) with hzx | hzy
          · subst hzx
            cases hyz : less y z with
            | false => rfl
            | true =>
              have hzz := hl.trans z y z hxy hyz
              rw [hl.irrefl z] at hzz
              exact absurd hzz (by simp)
          · exact hy.1 z hzy
        · rename_i hxy
          have hxy2 : less x y = false := by simpa using hxy
          refine List.pairwise_cons.mpr ⟨?_, h⟩
          intro z hz
          rcases List.mem_cons.mp hz with hzy | hzy
          · subst hzy; exact hxy2
          · exact hl.negTrans x y z hxy2 (hy.1 z hzy)
    have fold : ∀ (zs acc : List Process),
        acc.Pairwise (fun a b => less a b = false) →
        (zs.foldl (fun sortedRev x => insertionStep less x sortedRev) acc).Pairwise
          (fun a b => less a b = false) := by
      intro zs
      induction zs with
      | nil => intro acc h; simpa using h
      | cons x zs ih => intro acc h; exact ih _ (insert x acc h)
    unfold insertionSortFunc
    rw [List.pairwise_reverse]
    exact fold xs [] List.Pairwise.nil

/-! ## Notions the statements are written in -/

/-- The lines `parseLsof` reads records from: all lines after the first, each
without its trailing carriage return. -/
def dataLines (output : Str) : List Str := ((scanTokens output).map dropCR).drop 1

/-- The substring of `node` after its last colon: the longest suffix of `node`
without a colon. -/
def afterLastColon (node : Str) : Str :=
  (node.reverse.takeWhile (fun c => c != ':')).reverse

/-- The record the specification reads off one line: none unless the line has
at least 9 whitespace-separated fields and a colon in the 9th. -/
def lineRecord (lsofCwd : Str → Option Str) (line : Str) : Option Process :=
  let fields := stringsFields line
  if 9 ≤ fields.length ∧ ':' ∈ fields.getD 8 [] then
    some { Command := fields.getD 0 []
           PID := fields.getD 1 []
           Port := afterLastColon (fields.getD 8 [])
           PWD := getPwdForPid lsofCwd (fields.getD 1 [])
           StatusCode := 0 }
  else none

/-- The number a string of decimal digits denotes, continuing from `n`; none
when a character is not a decimal digit. -/
def readDigits : Str → Nat → Option Nat
  | [], n => some n
  | c :: cs, n => if '0' ≤ c ∧ c ≤ '9' then readDigits cs (10 * n + (c.toNat - 48)) else none

/-- The integer a string denotes in decimal notation, an optional sign
followed by at least one digit; none for any other string. -/
def readInt (s : Str) : Option Int :=
  match s with
  | [] => none
  | c :: cs =>
    if c = '-' then (if cs = [] then none else (readDigits cs 0).map (fun n => -(n : Int)))
    else if c = '+' then (if cs = [] then none else (readDigits cs 0).map (fun n => (n : Int)))
    else (readDigits (c :: cs) 0).map (fun n => (n : Int))

/-- A numeric port: a non-empty string of decimal digits. -/
def isNumeric (s : Str) : Bool := !s.isEmpty && s.all (fun c => decide ('0' ≤ c ∧ c ≤ '9'))

/-- The identity of a record: its process id and its port. -/
def Process.identity (p : Process) : Str × Str := (p.PID, p.Port)

/-- The classification of the record `proc` at index `i`: the value its call
of `checkHTTPServer` returns (written 0 when the call panics and returns
nothing). -/
def classification (view : Nat → GoroutineView) (i : Nat) (proc : Process) : Int :=
  (goroutineStatus view i proc).getD 0

/-- The records the specification keeps after classification: those whose
classification is nonzero, each with the classification as its `StatusCode`. -/
def specSurvivors (view : Nat → GoroutineView) (procs : List Process) : List Process :=
  (procs.enum.filter (fun ip => decide (classification view ip.1 ip.2 ≠ 0))).map
    (fun ip => { ip.2 with StatusCode := classification view ip.1 ip.2 })

/-- A port read as an integer, first reading: the integer the port denotes, and
0 when it denotes none. -/
def integerOrZero (s : Str) : Int := (readInt s).getD 0

/-- Whether `strconv.Atoi(s)` returns a non-nil error: a syntax error or a
range error. -/
def strconvAtoiFails (s : Str) : Bool :=
  match s with
  | [] => true
  | c :: cs =>
    let neg := decide (c = '-')
    let digits := if c = '+' ∨ c = '-' then cs else c :: cs
    match parseUint digits with
    | .syntaxError => true
    | .rangeError => true
    | .value un => (!neg && decide (un ≥ 2 ^ 63)) || (neg && decide (un > 2 ^ 63))

/-- A port read as an integer, second reading: the value of `strconv.Atoi`,
and 0 when `strconv.Atoi` reports an error. -/
def atoiOrZero (s : Str) : Int := if strconvAtoiFails s then 0 else strconvAtoi s

/-- An integer brought into the range of a 64-bit `int`. -/
def clampInt (n : Int) : Int :=
  if n < -9223372036854775808 then -9223372036854775808
  else if n > 9223372036854775807 then 9223372036854775807
  else n

/-- An order of arrival: the goroutines append in launch order. -/
def launchOrder : Interleaving := ⟨id, fun _ => List.Perm.refl _⟩

/-- An order of arrival: the goroutines append in reverse launch order. -/
def reverseOrder : Interleaving := ⟨List.reverse, List.reverse_perm⟩

/-- What a slot shows: the parent's title, whether the parent is disabled and
hidden, and whether each of the three sub-controls is hidden. -/
structure Display where
  title : Str
  parentDisabled : Bool
  parentHidden : Bool
  openHidden : Bool
  copyHidden : Bool
  stopHidden : Bool
  deriving DecidableEq, Repr

/-- The display state of a slot. -/
def ProcessMenuItem.display (slot : ProcessMenuItem) : Display :=
  { title := slot.Parent.title
    parentDisabled := slot.Parent.disabled
    parentHidden := slot.Parent.hidden
    openHidden := slot.Open.hidden
    copyHidden := slot.Copy.hidden
    stopHidden := slot.Stop.hidden }

/-- The identities of the four controls of a slot. -/
def ProcessMenuItem.handles (slot : ProcessMenuItem) : Nat × Nat × Nat × Nat :=
  (slot.Parent.id, slot.Open.id, slot.Copy.id, slot.Stop.id)

/-- The display state the specification gives a slot bound to `p`: that of a
separator when `p.PID` is `"SEP"`, that of a normal candidate otherwise. -/
def specDisplay (p : Process) : Display :=
  if p.PID = "SEP".toList then
    { title := separatorTitle, parentDisabled := true, parentHidden := false,
      openHidden := true, copyHidden := true, stopHidden := true }
  else
    let label := "[".toList ++ p.Port ++ "] ".toList ++ p.Command
      ++ (if p.PWD = [] then [] else " \x7bin ".toList ++ p.PWD ++ "\x7d".toList)
    { title :=
        if 400 ≤ p.StatusCode then
          warningMarker ++ label ++ " (HTTP ".toList ++ fmtInt p.StatusCode ++ ")".toList
        else label
      parentDisabled := false, parentHidden := false,
      openHidden := false, copyHidden := false, stopHidden := false }

/-! ## Inputs of the examples -/

/-- The input of `TestParseLsof`. -/
def testOutput : Str :=
  ("COMMAND   PID   USER   FD   TYPE             DEVICE SIZE/OFF NODE NAME\n"
  ++ "python3 9999991 liudas    3u  IPv4 0x4cff84095c90996c      0t0  TCP *:8080 (LISTEN)\n"
  ++ "node    9999992 liudas   51u  IPv6 0xedb974cc99f0cb72      0t0  TCP *:3000 (LISTEN)\n"
  ++ "go      9999993 liudas   39u  IPv4 0x528c651d1ab21a39      0t0  TCP 127.0.0.1:51912 (LISTEN)").toList

/-- The records `TestParseLsof` expects. -/
def testExpected : List Process :=
  [ { PID := "9999992".toList, Command := "node".toList, Port := "3000".toList, PWD := [],
      StatusCode := 0 },
    { PID := "9999991".toList, Command := "python3".toList, Port := "8080".toList, PWD := [],
      StatusCode := 0 },
    { PID := "9999993".toList, Command := "go".toList, Port := "51912".toList, PWD := [],
      StatusCode := 0 } ]

/-- An input with two rows whose 9th field ends in a non-numeric and in an
empty suffix. -/
def nonNumericOutput : Str :=
  ("COMMAND PID USER FD TYPE DEVICE SIZE/OFF NODE NAME\n"
  ++ "nginx 77 root 6u IPv4 0x1 0t0 TCP *:http (LISTEN)\n"
  ++ "nc 78 root 3u IPv4 0x2 0t0 TCP *: (LISTEN)").toList

/-- An input with an IPv4 row and an IPv6 row of one process listening on one
port. -/
def dualStackOutput : Str :=
  ("COMMAND PID USER FD TYPE DEVICE SIZE/OFF NODE NAME\n"
  ++ "node 4242 liudas 23u IPv4 0xa 0t0 TCP *:3000 (LISTEN)\n"
  ++ "node 4242 liudas 24u IPv6 0xb 0t0 TCP *:3000 (LISTEN)").toList

/-- The records `parseLsof` returns on `nonNumericOutput`. -/
def nonNumericRecords : List Process :=
  [ { PID := "77".toList, Command := "nginx".toList, Port := "http".toList, PWD := [],
      StatusCode := 0 },
    { PID := "78".toList, Command := "nc".toList, Port := [], PWD := [], StatusCode := 0 } ]

/-- The records `parseLsof` returns on `dualStackOutput`. -/
def dualStackRecords : List Process :=
  [ { PID := "4242".toList, Command := "node".toList, Port := "3000".toList, PWD := [],
      StatusCode := 0 },
    { PID := "4242".toList, Command := "node".toList, Port := "3000".toList, PWD := [],
      StatusCode := 0 } ]

/-- A cache with one entry: the value 0 under the key of process 9999992 and
port 3000. -/
def exampleCache : Cache :=
  fun key => if key = "9999992:3000".toList then some 0 else none

/-- Goroutine views for the examples: every goroutine reads `exampleCache`, and
every probe is answered with status 404. -/
def exampleView : Nat → GoroutineView :=
  fun _ => { cache := exampleCache, doProbe := fun _ => some (.response 404) }

/-- An input with four rows on the ports 5, 99999999999999999999,
9223372036854775809 and 9223372036854775808. -/
def overflowOutput : Str :=
  ("COMMAND PID USER FD TYPE DEVICE SIZE/OFF NODE NAME\n"
  ++ "a 1 root 3u IPv4 0x1 0t0 TCP *:5 (LISTEN)\n"
  ++ "b 2 root 3u IPv4 0x2 0t0 TCP *:99999999999999999999 (LISTEN)\n"
  ++ "c 3 root 3u IPv4 0x3 0t0 TCP *:9223372036854775809 (LISTEN)\n"
  ++ "d 4 root 3u IPv4 0x4 0t0 TCP *:9223372036854775808 (LISTEN)").toList

/-- The records `parseLsof` returns on `overflowOutput`, in the order it returns
them. -/
def overflowRecords : List Process :=
  [ { PID := "1".toList, Command := "a".toList, Port := "5".toList, PWD := [], StatusCode := 0 },
    { PID := "2".toList, Command := "b".toList, Port := "99999999999999999999".toList,
      PWD := [], StatusCode := 0 },
    { PID := "3".toList, Command := "c".toList, Port := "9223372036854775809".toList,
      PWD := [], StatusCode := 0 },
    { PID := "4".toList, Command := "d".toList, Port := "9223372036854775808".toList,
      PWD := [], StatusCode := 0 } ]

/-- Goroutine views in which every goroutine finds the value 200 in the cache,
whatever the key, so that none issues a probe. -/
def cachedView : Nat → GoroutineView :=
  fun _ => { cache := fun _ => some 200, doProbe := fun _ => none }

/-- The records `getOpenPorts` keeps of `overflowRecords` under `cachedView`. -/
def overflowKept : List Process :=
  overflowRecords.map (fun p => { p with StatusCode := 200 })

/-- Lines 52-54 on a machine where nothing listens, for the examples: no
request can be built for the port "http" (`http://localhost:http` is no URL),
and every other request ends in a refused connection. -/
def noRequestForHttp : Str → Option ProbeResult :=
  fun port =>
    if port = "http".toList then none
    else some (.failure "dial tcp: connect: connection refused".toList)

/-- Three classified candidates, the one on port 8080 failing with 404. -/
def exampleCandidates : List Process :=
  [ { PID := "9999992".toList, Command := "node".toList, Port := "3000".toList, PWD := [],
      StatusCode := 200 },
    { PID := "9999991".toList, Command := "python3".toList, Port := "8080".toList, PWD := [],
      StatusCode := 404 },
    { PID := "9999993".toList, Command := "go".toList, Port := "51912".toList, PWD := [],
      StatusCode := 200 } ]

/-- The tray before the first cycle: no slot yet. -/
def emptyTray : Tray := { currentID := 0, currentMenu := [] }

/-! ## Lemmas -/

theorem optionMap_eq_some {α β : Type} {f : α → β} {o : Option α} {b : β} :
    o.map f = some b ↔ ∃ a, o = some a ∧ f a = b := by
  cases o <;> simp

theorem stringsContains_iff (s substr : Str) :
    stringsContains s substr = true ↔ substr <:+: s := by
  induction s with
  | nil => simp [stringsContains, List.isEmpty_iff]
  | cons c cs ih =>
    simp only [stringsContains, Bool.or_eq_true, ih, List.infix_cons_iff,
      List.isPrefixOf_iff_prefix]

theorem checkHTTPServer_miss (doProbe : Str → Option ProbeResult) (cache : Cache)
    (pid command port : Str) (outcome : ProbeResult) (hcmd : ignoreApps command = false)
    (hmiss : cache (cacheKey pid port) = none) (hreq : doProbe port = some outcome) :
    checkHTTPServer doProbe cache pid command port =
      some { status := classifyProbe outcome
             cache := cache.insert (cacheKey pid port) (classifyProbe outcome)
             trace := [.cacheRead (cacheKey pid port), .probe port,
               .cacheWrite (cacheKey pid port) (classifyProbe outcome)] } := by
  simp only [checkHTTPServer, hcmd, hmiss, hreq]
  rfl

theorem checkHTTPServer_panic (doProbe : Str → Option ProbeResult) (cache : Cache)
    (pid command port : Str) (hcmd : ignoreApps command = false)
    (hmiss : cache (cacheKey pid port) = none) (hreq : doProbe port = none) :
    checkHTTPServer doProbe cache pid command port = none := by
  simp only [checkHTTPServer, hcmd, hmiss, hreq]
  rfl

theorem checkHTTPServer_hit (doProbe : Str → Option ProbeResult) (cache : Cache)
    (pid command port : Str) (v : Int) (hcmd : ignoreApps command = false)
    (hhit : cache (cacheKey pid port) = some v) :
    checkHTTPServer doProbe cache pid command port =
      some { status := v, cache := cache, trace := [.cacheRead (cacheKey pid port)] } := by
  simp only [checkHTTPServer, hcmd, hhit]
  rfl

theorem checkHTTPServer_skip (doProbe : Str → Option ProbeResult) (cache : Cache)
    (pid command port : Str) (hcmd : ignoreApps command = true) :
    checkHTTPServer doProbe cache pid command port =
      some { status := 0, cache := cache, trace := [] } := by
  simp only [checkHTTPServer, hcmd]
  rfl

theorem checkHTTPServer_returns_iff (doProbe : Str → Option ProbeResult) (cache : Cache)
    (pid command port : Str) :
    checkHTTPServer doProbe cache pid command port = none ↔
      ignoreApps command = false ∧ cache (cacheKey pid port) = none ∧ doProbe port = none := by
  cases hcmd : ignoreApps command with
  | true => simp [checkHTTPServer_skip _ _ _ _ _ hcmd]
  | false =>
    cases hc : cache (cacheKey pid port) with
    | some v => simp [checkHTTPServer_hit _ _ _ _ _ v hcmd hc]
    | none =>
      cases hp : doProbe port with
      | none => simp [checkHTTPServer_panic _ _ _ _ _ hcmd hc hp]
      | some outcome => simp [checkHTTPServer_miss _ _ _ _ _ outcome hcmd hc hp]

/-- When the first of two calls in a row returns, so does the second, with the
same value, no probe of its own and the cache as the first left it; the two
issue at most one probe, and the cache holds the returned value under the key
of the process id and port. -/
theorem checkHTTPServer_second_call_cached
    (doProbe₁ doProbe₂ : Str → Option ProbeResult) (cache : Cache)
    (pid command port : Str) (first : CheckResult)
    (hcmd : ignoreApps command = false)
    (hfirst : checkHTTPServer doProbe₁ cache pid command port = some first) :
    ∃ second, checkHTTPServer doProbe₂ first.cache pid command port = some second
      ∧ probeCount first.trace + probeCount second.trace ≤ 1
      ∧ probeCount second.trace = 0
      ∧ second.status = first.status
      ∧ second.cache = first.cache
      ∧ first.cache (cacheKey pid port) = some first.status := by
  cases hc : cache (cacheKey pid port) with
  | some v =>
    rw [checkHTTPServer_hit doProbe₁ cache pid command port v hcmd hc] at hfirst
    simp only [Option.some.injEq] at hfirst
    subst hfirst
    exact ⟨_, checkHTTPServer_hit doProbe₂ cache pid command port v hcmd hc,
      by simp [probeCount], by simp [probeCount], rfl, rfl, hc⟩
  | none =>
    cases hp : doProbe₁ port with
    | none =>
      rw [checkHTTPServer_panic doProbe₁ cache pid command port hcmd hc hp] at hfirst
      cases hfirst
    | some outcome =>
      rw [checkHTTPServer_miss doProbe₁ cache pid command port outcome hcmd hc hp] at hfirst
      simp only [Option.some.injEq] at hfirst
      subst hfirst
      have hhit : (cache.insert (cacheKey pid port) (classifyProbe outcome))
          (cacheKey pid port) = some (classifyProbe outcome) := by
        simp [Cache.insert]
      exact ⟨_, checkHTTPServer_hit doProbe₂ _ pid command port _ hcmd hhit,
        by simp [probeCount], by simp [probeCount], rfl, rfl, hhit⟩

theorem foldl_groupStep (procs a b : List Process) :
    procs.foldl groupStep (a, b) =
      (a ++ procs.filter (fun p => decide (p.StatusCode < 400)),
        b ++ procs.filter (fun p => decide (400 ≤ p.StatusCode))) := by
  induction procs generalizing a b with
  | nil => simp
  | cons p ps ih =>
    rw [List.foldl_cons]
    by_cases h : 400 ≤ p.StatusCode
    · have h' : ¬ p.StatusCode < 400 := by omega
      simp [groupStep, h, h', ih]
    · have h' : p.StatusCode < 400 := by omega
      simp [groupStep, h, h', ih]

theorem addSlot_currentMenu (t : Tray) :
    ∃ pmi, (addSlot t).currentMenu = t.currentMenu ++ [pmi] := ⟨_, rfl⟩

theorem ensureSlotsLoop_spec (need : Nat) (fuel : Nat) (t : Tray)
    (hfuel : need - t.currentMenu.length ≤ fuel) :
    ∃ added, (ensureSlotsLoop need fuel t).currentMenu = t.currentMenu ++ added
      ∧ added.length = need - t.currentMenu.length := by
  induction fuel generalizing t with
  | zero =>
    refine ⟨[], by simp [ensureSlotsLoop], ?_⟩
    simp only [List.length_nil]; omega
  | succ fuel ih =>
    unfold ensureSlotsLoop
    split
    · rename_i hlt
      obtain ⟨pmi, hpmi⟩ := addSlot_currentMenu t
      have hlen : (addSlot t).currentMenu.length = t.currentMenu.length + 1 := by
        rw [hpmi]; simp
      obtain ⟨added, h1, h2⟩ := ih (addSlot t) (by rw [hlen]; omega)
      refine ⟨pmi :: added, ?_, ?_⟩
      · rw [h1, hpmi]; simp
      · rw [List.length_cons, h2, hlen]; omega
    · rename_i hge
      refine ⟨[], by simp, ?_⟩
      simp only [List.length_nil]; omega

theorem ensureSlots_spec (need : Nat) (t : Tray) :
    ∃ added, (ensureSlots need t).currentMenu = t.currentMenu ++ added
      ∧ added.length = need - t.currentMenu.length :=
  ensureSlotsLoop_spec need need t (by omega)

theorem length_updateSlotsFrom (all : List Process) (k : Nat) (menu : List ProcessMenuItem) :
    (updateSlotsFrom all k menu).length = menu.length := by
  induction menu generalizing k with
  | nil => rfl
  | cons s rest ih => simp [updateSlotsFrom, ih]

theorem getElem?_updateSlotsFrom (all : List Process) (k : Nat) (menu : List ProcessMenuItem)
    (i : Nat) :
    (updateSlotsFrom all k menu)[i]? = (menu[i]?).map (updateSlot all (k + i)) := by
  induction menu generalizing k i with
  | nil => simp [updateSlotsFrom]
  | cons s rest ih =>
    cases i with
    | zero => simp [updateSlotsFrom]
    | succ i =>
      simp only [updateSlotsFrom, List.getElem?_cons_succ, ih]
      rw [show k + 1 + i = k + (i + 1) by omega]

theorem updateMenu_ok_currentMenu (procs : List Process) (t : Tray) :
    ∃ added, (updateMenu (.ok procs) t).currentMenu =
        updateSlotsFrom (allSortedProcs procs) 0 (t.currentMenu ++ added)
      ∧ added.length = (allSortedProcs procs).length - t.currentMenu.length := by
  obtain ⟨added, h1, h2⟩ := ensureSlots_spec (allSortedProcs procs).length t
  exact ⟨added, by simp [updateMenu, h1], h2⟩

theorem updateMenu_length (ports : Except PortsError (List Process)) (t : Tray) :
    (updateMenu ports t).currentMenu.length =
      match ports with
      | .error _ => t.currentMenu.length
      | .ok procs => max t.currentMenu.length (allSortedProcs procs).length := by
  cases ports with
  | error e => rfl
  | ok procs =>
    obtain ⟨added, h1, h2⟩ := updateMenu_ok_currentMenu procs t
    simp only [h1, length_updateSlotsFrom, List.length_append, h2]
    omega

theorem pollLoop_length_mono (cycles : List (Except PortsError (List Process))) (t : Tray) :
    t.currentMenu.length ≤ (pollLoop cycles t).currentMenu.length := by
  induction cycles generalizing t with
  | nil => exact Nat.le_refl _
  | cons c cs ih =>
    have h1 := updateMenu_length c t
    have h2 := ih (updateMenu c t)
    have h3 : t.currentMenu.length ≤ (updateMenu c t).currentMenu.length := by
      rw [h1]; cases c <;> simp
    exact Nat.le_trans h3 h2

theorem bindSlot_spec (p : Process) (slot : ProcessMenuItem) :
    (bindSlot p slot).Proc = p
    ∧ (bindSlot p slot).Parent.hidden = false
    ∧ (bindSlot p slot).display = specDisplay p := by
  by_cases hsep : p.PID = "SEP".toList
  · simp only [bindSlot, specDisplay, if_pos hsep]
    exact ⟨trivial, rfl, rfl⟩
  · simp only [bindSlot, specDisplay, if_neg hsep]
    refine ⟨trivial, rfl, ?_⟩
    by_cases hpwd : p.PWD = [] <;> by_cases hst : 400 ≤ p.StatusCode <;>
      simp [hpwd, hst, slotTitle, ProcessMenuItem.display, MenuItem.Show,
        MenuItem.Enable, MenuItem.SetTitle]

theorem updateSlot_bound (all : List Process) (i : Nat) (slot : ProcessMenuItem)
    (h : i < all.length) :
    (updateSlot all i slot).Proc = all.get ⟨i, h⟩
    ∧ (updateSlot all i slot).Parent.hidden = false
    ∧ (updateSlot all i slot).display = specDisplay (all.get ⟨i, h⟩) := by
  unfold updateSlot
  rw [dif_pos h]
  exact bindSlot_spec _ slot

theorem updateSlot_unbound (all : List Process) (i : Nat) (slot : ProcessMenuItem)
    (h : all.length ≤ i) :
    updateSlot all i slot = { slot with Parent := slot.Parent.Hide } := by
  unfold updateSlot
  rw [dif_neg (by omega)]

theorem updateSlot_handles (all : List Process) (i : Nat) (slot : ProcessMenuItem) :
    (updateSlot all i slot).handles = slot.handles := by
  unfold updateSlot
  split
  · unfold bindSlot
    split <;> rfl
  · rfl

theorem stringsLastIndexAux_none (c : Char) (xs : Str) (k : Nat) :
    stringsLastIndexAux c xs k = none ↔ c ∉ xs := by
  induction xs generalizing k with
  | nil => simp [stringsLastIndexAux]
  | cons x xs ih =>
    unfold stringsLastIndexAux
    cases h : stringsLastIndexAux c xs (k + 1) with
    | some j =>
      have : c ∈ xs := by
        by_contra hn
        rw [(ih (k + 1)).mpr hn] at h
        cases h
      simp [this]
    | none =>
      have hn : c ∉ xs := (ih (k + 1)).mp h
      by_cases hx : x = c
      · simp [hx]
      · have hx' : ¬ c = x := fun e => hx e.symm
        simp [hx, hx', hn]

theorem stringsLastIndexAux_some (c : Char) (xs : Str) (k j : Nat)
    (h : stringsLastIndexAux c xs k = some j) :
    ∃ pre post, xs = pre ++ c :: post ∧ c ∉ post ∧ j = k + pre.length := by
  induction xs generalizing k with
  | nil => simp [stringsLastIndexAux] at h
  | cons x xs ih =>
    unfold stringsLastIndexAux at h
    cases h' : stringsLastIndexAux c xs (k + 1) with
    | some j' =>
      rw [h'] at h
      simp only [Option.some.injEq] at h
      subst h
      obtain ⟨pre, post, h1, h2, h3⟩ := ih (k + 1) h'
      refine ⟨x :: pre, post, by rw [h1]; rfl, h2, ?_⟩
      rw [h3, List.length_cons]; omega
    | none =>
      rw [h'] at h
      simp only at h
      by_cases hx : x = c
      · rw [if_pos hx] at h
        simp only [Option.some.injEq] at h
        exact ⟨[], xs, by rw [hx]; rfl, (stringsLastIndexAux_none c xs (k + 1)).mp h',
          by rw [← h]; rfl⟩
      · rw [if_neg hx] at h
        cases h

theorem afterLastColon_append (pre post : Str) (h : ':' ∉ post) :
    afterLastColon (pre ++ ':' :: post) = post := by
  unfold afterLastColon
  have hrev : (pre ++ ':' :: post).reverse = post.reverse ++ (':' :: pre.reverse) := by simp
  rw [hrev, List.takeWhile_append_of_pos]
  · simp
  · intro a ha
    have : a ∈ post := List.mem_reverse.mp ha
    simp only [bne_iff_ne, ne_eq]
    intro e; rw [e] at this; exact h this

theorem parseLsofLine_eq (lsofCwd : Str → Option Str) (procs : List Process) (line : Str) :
    parseLsofLine lsofCwd procs line = procs ++ (lineRecord lsofCwd line).toList := by
  unfold parseLsofLine lineRecord
  by_cases hlen : (stringsFields line).length < 9
  · have : ¬ (9 ≤ (stringsFields line).length ∧ ':' ∈ (stringsFields line).getD 8 []) := by
      intro h; omega
    simp only [if_pos hlen, if_neg this]
    simp
  · simp only [if_neg hlen]
    cases hidx : stringsLastIndex ((stringsFields line).getD 8 []) ':' with
    | none =>
      have hn : ':' ∉ (stringsFields line).getD 8 [] :=
        (stringsLastIndexAux_none _ _ 0).mp hidx
      have : ¬ (9 ≤ (stringsFields line).length ∧ ':' ∈ (stringsFields line).getD 8 []) :=
        fun h => hn h.2
      simp only [if_neg this]
      simp
    | some j =>
      obtain ⟨pre, post, h1, h2, h3⟩ := stringsLastIndexAux_some _ _ 0 j hidx
      have hmem : ':' ∈ (stringsFields line).getD 8 [] := by rw [h1]; simp
      have : 9 ≤ (stringsFields line).length ∧ ':' ∈ (stringsFields line).getD 8 [] :=
        ⟨by omega, hmem⟩
      simp only [if_pos this]
      have hport : ((stringsFields line).getD 8 []).drop (j + 1)
          = afterLastColon ((stringsFields line).getD 8 []) := by
        rw [h1, afterLastColon_append pre post h2, h3, Nat.zero_add]
        simp
      rw [hport]
      rfl

theorem foldl_parseLsofLine (lsofCwd : Str → Option Str) (lines : List Str)
    (procs : List Process) :
    lines.foldl (parseLsofLine lsofCwd) procs = procs ++ lines.filterMap (lineRecord lsofCwd) := by
  induction lines generalizing procs with
  | nil => simp
  | cons l ls ih =>
    rw [List.foldl_cons, ih, parseLsofLine_eq]
    cases h : lineRecord lsofCwd l <;> simp [List.filterMap_cons, h]

theorem portLess_strictWeak : StrictWeak portLess where
  irrefl := by intro a; simp [portLess]
  trans := by
    intro a b c h1 h2
    simp only [portLess, decide_eq_true_eq] at *
    omega
  negTrans := by
    intro a b c h1 h2
    simp only [portLess, decide_eq_false_iff_not] at *
    omega

theorem sortSlice_portLess_sorted (S : SliceSorter) (xs : List Process) :
    (S.sortSlice portLess xs).Pairwise (fun a b => strconvAtoi a.Port ≤ strconvAtoi b.Port) := by
  refine (S.sorted portLess xs portLess_strictWeak).imp ?_
  intro a b h
  simp only [portLess, decide_eq_false_iff_not] at h
  omega

theorem sorted_perm_unique {α : Type} (key : α → Int) {l l' : List α} (hp : l.Perm l')
    (hs : l.Pairwise (fun a b => key a ≤ key b))
    (hs' : l'.Pairwise (fun a b => key a < key b)) : l = l' := by
  induction l' generalizing l with
  | nil => exact hp.eq_nil
  | cons a l'' ih =>
    cases l with
    | nil => exact absurd hp.symm.eq_nil (by simp)
    | cons b m =>
      have hs1 := List.pairwise_cons.mp hs
      have hs1' := List.pairwise_cons.mp hs'
      have hb : b ∈ a :: l'' := hp.subset (List.mem_cons_self b m)
      have hab : b = a := by
        rcases List.mem_cons.mp hb with h | h
        · exact h
        · have h1 : key a < key b := hs1'.1 b h
          have ha : a ∈ b :: m := hp.symm.subset (List.mem_cons_self a l'')
          rcases List.mem_cons.mp ha with h2 | h2
          · exact h2.symm
          · have := hs1.1 a h2
            omega
      subst hab
      rw [ih (List.Perm.cons_inv hp) hs1.2 hs1'.2]

theorem parseUintLoop_short (cs : Str) (n B : Nat) (hn : n < B)
    (hB : B * 10 ^ cs.length ≤ 10 ^ 18) :
    parseUintLoop cs n =
      (match readDigits cs n with
        | some v => .value v
        | none => .syntaxError)
    ∧ ∀ v, readDigits cs n = some v → v < 10 ^ 18 := by
  induction cs generalizing n B with
  | nil =>
    simp only [List.length_nil, pow_zero, Nat.mul_one] at hB
    refine ⟨by simp [parseUintLoop, readDigits], ?_⟩
    intro v hv
    simp only [readDigits, Option.some.injEq] at hv
    omega
  | cons c cs ih =>
    have hpow : B * 10 ^ (c :: cs).length = (B * 10) * 10 ^ cs.length := by
      rw [List.length_cons, pow_succ]; ring
    rw [hpow] at hB
    have hpos : 0 < 10 ^ cs.length := Nat.pow_pos (by norm_num)
    have hB10 : B * 10 ≤ 10 ^ 18 := Nat.le_trans (Nat.le_mul_of_pos_right _ hpos) hB
    unfold parseUintLoop readDigits
    by_cases hd : '0' ≤ c ∧ c ≤ '9'
    · have hc9 : c.toNat ≤ 57 := hd.2
      have h9 : c.toNat - '0'.toNat ≤ 9 := by
        have : '0'.toNat = 48 := rfl
        omega
      have h48 : c.toNat - '0'.toNat = c.toNat - 48 := rfl
      have hlt : n * 10 + (c.toNat - '0'.toNat) < B * 10 := by omega
      have e18 : (10 : Nat) ^ 18 = 1000000000000000000 := by norm_num
      have e64 : (2 : Nat) ^ 64 = 18446744073709551616 := by norm_num
      have h1 : ¬ n ≥ (2 ^ 64 - 1) / 10 + 1 := by
        rw [e64]; omega
      have h2 : ¬ n * 10 + (c.toNat - '0'.toNat) > 2 ^ 64 - 1 := by
        rw [e64]; omega
      simp only [if_pos hd, if_neg h1, if_neg h2]
      have := ih (n * 10 + (c.toNat - '0'.toNat)) (B * 10) hlt hB
      rw [show 10 * n + (c.toNat - 48) = n * 10 + (c.toNat - '0'.toNat) by rw [h48]; omega]
      exact this
    · simp only [if_neg hd]
      exact ⟨trivial, fun v hv => by cases hv⟩

theorem parseUint_short (cs : Str) (hne : cs ≠ []) (hlen : cs.length ≤ 18) :
    parseUint cs =
      (match readDigits cs 0 with
        | some v => .value v
        | none => .syntaxError)
    ∧ ∀ v, readDigits cs 0 = some v → v < 10 ^ 18 := by
  have hB : 1 * 10 ^ cs.length ≤ 10 ^ 18 := by
    rw [Nat.one_mul]
    exact Nat.pow_le_pow_right (by norm_num) hlen
  have := parseUintLoop_short cs 0 1 (by norm_num) hB
  unfold parseUint
  have he : cs.isEmpty = false := by
    cases cs with
    | nil => exact absurd rfl hne
    | cons _ _ => rfl
  simp only [he]
  exact this

theorem strconvAtoi_short (s : Str) (hlen : s.length < 19) :
    strconvAtoi s = (readInt s).getD 0 := by
  have e18 : (10 : Nat) ^ 18 = 1000000000000000000 := by norm_num
  have e63 : (2 : Nat) ^ 63 = 9223372036854775808 := by norm_num
  cases s with
  | nil => rfl
  | cons c cs =>
    simp only [List.length_cons] at hlen
    unfold strconvAtoi readInt
    by_cases hm : c = '-'
    · subst hm
      by_cases hcs : cs = []
      · subst hcs; rfl
      · obtain ⟨h1, h2⟩ := parseUint_short cs hcs (by omega)
        simp only [if_pos, if_neg hcs, true_or, or_true, h1]
        cases hr : readDigits cs 0 with
        | none => rfl
        | some v =>
          have hv := h2 v hr
          have hv1 : ¬ v ≥ 2 ^ 63 := by rw [e63]; omega
          have hv2 : ¬ v > 2 ^ 63 := by rw [e63]; omega
          simp only [e63] at hv1 hv2
          simp
          intro h; omega
    · by_cases hp : c = '+'
      · subst hp
        by_cases hcs : cs = []
        · subst hcs; rfl
        · obtain ⟨h1, h2⟩ := parseUint_short cs hcs (by omega)
          simp only [if_neg hm, if_pos, if_neg hcs, true_or, h1]
          cases hr : readDigits cs 0 with
          | none => rfl
          | some v =>
            have hv := h2 v hr
            have hv1 : ¬ v ≥ 2 ^ 63 := by rw [e63]; omega
            simp only [e63] at hv1
            simp
            intro h; omega
      · obtain ⟨h1, h2⟩ := parseUint_short (c :: cs) (by simp) (by simp only [List.length_cons]; omega)
        have hor : ¬ (c = '+' ∨ c = '-') := fun h => h.elim hp hm
        simp only [if_neg hm, if_neg hp, if_neg hor, h1]
        cases hr : readDigits (c :: cs) 0 with
        | none => rfl
        | some v =>
          have hv := h2 v hr
          have hv1 : ¬ v ≥ 2 ^ 63 := by rw [e63]; omega
          simp only [e63] at hv1
          simp [hm]
          intro h; omega

theorem readDigits_ge (cs : Str) (n v : Nat) (h : readDigits cs n = some v) : n ≤ v := by
  induction cs generalizing n with
  | nil =>
    simp only [readDigits, Option.some.injEq] at h
    omega
  | cons c cs ih =>
    unfold readDigits at h
    split at h
    · have := ih _ h
      omega
    · cases h

theorem parseUintLoop_digits (cs : Str) (n v : Nat) (hn : n < 18446744073709551616)
    (h : readDigits cs n = some v) :
    (v < 18446744073709551616 ∧ parseUintLoop cs n = .value v)
    ∨ (18446744073709551616 ≤ v ∧ parseUintLoop cs n = .rangeError) := by
  have e64 : (2 : Nat) ^ 64 = 18446744073709551616 := by norm_num
  induction cs generalizing n with
  | nil =>
    simp only [readDigits, Option.some.injEq] at h
    subst h
    exact Or.inl ⟨hn, rfl⟩
  | cons c cs ih =>
    unfold readDigits at h
    unfold parseUintLoop
    by_cases hd : '0' ≤ c ∧ c ≤ '9'
    · rw [if_pos hd] at h
      have hge := readDigits_ge cs _ v h
      have h48 : c.toNat - '0'.toNat = c.toNat - 48 := rfl
      simp only [if_pos hd]
      by_cases h1 : n ≥ (2 ^ 64 - 1) / 10 + 1
      · rw [if_pos h1]
        rw [e64] at h1
        exact Or.inr ⟨by omega, rfl⟩
      · rw [if_neg h1]
        by_cases h2 : n * 10 + (c.toNat - '0'.toNat) > 2 ^ 64 - 1
        · rw [if_pos h2]
          rw [e64, h48] at h2
          exact Or.inr ⟨by omega, rfl⟩
        · rw [if_neg h2]
          rw [e64, h48] at h2
          rw [h48]
          have h3 : 10 * n + (c.toNat - 48) = n * 10 + (c.toNat - 48) := by omega
          rw [h3] at h
          exact ih _ (by omega) h
    · rw [if_neg hd] at h
      cases h

theorem parseUint_digits (cs : Str) (v : Nat) (hne : cs ≠ []) (h : readDigits cs 0 = some v) :
    (v < 18446744073709551616 ∧ parseUint cs = .value v)
    ∨ (18446744073709551616 ≤ v ∧ parseUint cs = .rangeError) := by
  have he : cs.isEmpty = false := by
    cases cs with
    | nil => exact absurd rfl hne
    | cons _ _ => rfl
  unfold parseUint
  simp only [he]
  exact parseUintLoop_digits cs 0 v (by norm_num) h

theorem strconvAtoi_clamp (s : Str) (n : Int) (h : readInt s = some n) :
    strconvAtoi s = clampInt n := by
  have e63 : (2 : Nat) ^ 63 = 9223372036854775808 := by norm_num
  have e63i : (2 : Int) ^ 63 = 9223372036854775808 := by norm_num
  cases s with
  | nil => simp [readInt] at h
  | cons c cs =>
    unfold readInt at h
    unfold strconvAtoi
    by_cases hm : c = '-'
    · subst hm
      by_cases hcs : cs = []
      · simp [hcs] at h
      · cases hr : readDigits cs 0 with
        | none => simp [hcs, hr] at h
        | some v =>
          simp [hcs, hr] at h
          subst h
          simp only [or_true, if_true, decide_True]
          rcases parseUint_digits cs v hcs hr with ⟨hlt, hp⟩ | ⟨hge, hp⟩
          · rw [hp]
            simp only [Bool.not_true, Bool.false_and, Bool.true_and, decide_eq_true_eq, e63,
              Bool.false_eq_true, if_false, if_true]
            unfold clampInt
            split_ifs <;> omega
          · rw [hp]
            simp only [if_true, e63i]
            unfold clampInt
            split_ifs <;> omega
    · by_cases hp : c = '+'
      · subst hp
        by_cases hcs : cs = []
        · simp [hcs] at h
        · cases hr : readDigits cs 0 with
          | none => simp [hcs, hr] at h
          | some v =>
            simp [hcs, hr] at h
            subst h
            simp only [true_or, if_true, hm, decide_False]
            rcases parseUint_digits cs v hcs hr with ⟨hlt, hp⟩ | ⟨hge, hp⟩
            · rw [hp]
              simp only [Bool.not_false, Bool.true_and, Bool.false_and, decide_eq_true_eq, e63,
                Bool.false_eq_true, if_false]
              unfold clampInt
              split_ifs <;> omega
            · rw [hp]
              simp only [Bool.false_eq_true, if_false, e63i]
              unfold clampInt
              split_ifs <;> omega
      · cases hr : readDigits (c :: cs) 0 with
        | none => simp [hm, hp, hr] at h
        | some v =>
          simp [hm, hp, hr] at h
          subst h
          have hor : ¬ (c = '+' ∨ c = '-') := fun h => h.elim hp hm
          simp only [hm, hp, or_self, if_false, decide_False]
          rcases parseUint_digits (c :: cs) v (by simp) hr with ⟨hlt, hp⟩ | ⟨hge, hp⟩
          · rw [hp]
            simp only [Bool.not_false, Bool.true_and, Bool.false_and, decide_eq_true_eq, e63,
              Bool.false_eq_true, if_false]
            unfold clampInt
            split_ifs <;> omega
          · rw [hp]
            simp only [Bool.false_eq_true, if_false, e63i]
            unfold clampInt
            split_ifs <;> omega

theorem parseLsof_eq (S : SliceSorter) (lsofCwd : Str → Option Str) (output : Str) :
    parseLsof S lsofCwd output =
      if (scanTokens output).any (fun t => decide (maxScanTokenSize ≤ byteLen t)) then
        .error .errTooLong
      else .ok (S.sortSlice portLess ((dataLines output).filterMap (lineRecord lsofCwd))) := by
  unfold parseLsof dataLines
  simp only [foldl_parseLsofLine, List.nil_append]

theorem parseLsof_cases (S : SliceSorter) (lsofCwd : Str → Option Str) (output : Str) :
    (parseLsof S lsofCwd output = .error .errTooLong
      ∧ ∃ line ∈ scanTokens output, maxScanTokenSize ≤ byteLen line)
    ∨ (parseLsof S lsofCwd output
          = .ok (S.sortSlice portLess ((dataLines output).filterMap (lineRecord lsofCwd)))
      ∧ ∀ line ∈ scanTokens output, byteLen line < maxScanTokenSize) := by
  rw [parseLsof_eq]
  by_cases h : (scanTokens output).any (fun t => decide (maxScanTokenSize ≤ byteLen t)) = true
  · left
    refine ⟨by rw [if_pos h], ?_⟩
    obtain ⟨line, hl, hb⟩ := List.any_eq_true.mp h
    exact ⟨line, hl, by simpa using hb⟩
  · right
    refine ⟨by rw [if_neg h], ?_⟩
    intro line hl
    by_contra hb
    exact h (List.any_eq_true.mpr ⟨line, hl, by simpa using Nat.le_of_not_lt hb⟩)

set_option maxRecDepth 100000 in
theorem testOutput_scans :
    (scanTokens testOutput).any (fun t => decide (maxScanTokenSize ≤ byteLen t)) = false := by
  decide

set_option maxRecDepth 100000 in
theorem testOutput_records :
    (dataLines testOutput).filterMap (lineRecord (fun _ => none)) =
      [ { PID := "9999991".toList, Command := "python3".toList, Port := "8080".toList, PWD := [],
          StatusCode := 0 },
        { PID := "9999992".toList, Command := "node".toList, Port := "3000".toList, PWD := [],
          StatusCode := 0 },
        { PID := "9999993".toList, Command := "go".toList, Port := "51912".toList, PWD := [],
          StatusCode := 0 } ] := by
  decide

theorem lineRecord_pos (lsofCwd : Str → Option Str) (line : Str)
    (h : 9 ≤ (stringsFields line).length ∧ ':' ∈ (stringsFields line).getD 8 []) :
    lineRecord lsofCwd line =
      some { Command := (stringsFields line).getD 0 []
             PID := (stringsFields line).getD 1 []
             Port := afterLastColon ((stringsFields line).getD 8 [])
             PWD := getPwdForPid lsofCwd ((stringsFields line).getD 1 [])
             StatusCode := 0 } := by
  simp only [lineRecord, if_pos h]

theorem lineRecord_neg (lsofCwd : Str → Option Str) (line : Str)
    (h : ¬ (9 ≤ (stringsFields line).length ∧ ':' ∈ (stringsFields line).getD 8 [])) :
    lineRecord lsofCwd line = none := by
  simp only [lineRecord, if_neg h]

theorem testOutput_sorted (S : SliceSorter) :
    parseLsof S (fun _ => none) testOutput = .ok testExpected := by
  rw [parseLsof_eq, testOutput_scans, testOutput_records]
  simp only [Bool.false_eq_true, if_false]
  congr 1
  apply sorted_perm_unique (fun p => strconvAtoi p.Port)
  · refine (S.perm _ _).trans ?_
    exact List.Perm.swap _ _ _
  · exact sortSlice_portLess_sorted S _
  · unfold testExpected
    decide

theorem classifyProbe_nonneg (r : ProbeResult)
    (h : ∀ code, r = .response code → 0 ≤ code) : 0 ≤ classifyProbe r := by
  cases r with
  | response code =>
    have hc := h code rfl
    simp only [classifyProbe]
    split
    · split <;> omega
    · exact Int.le_refl 0
  | failure message =>
    simp only [classifyProbe]
    split <;> decide

theorem goroutineStatus_nonneg (view : Nat → GoroutineView)
    (hcache : ∀ i key v, (view i).cache key = some v → 0 ≤ v)
    (hprobe : ∀ i port code, (view i).doProbe port = some (.response code) → 0 ≤ code)
    (i : Nat) (proc : Process) (status : Int)
    (h : goroutineStatus view i proc = some status) : 0 ≤ status := by
  unfold goroutineStatus at h
  cases hcmd : ignoreApps proc.Command with
  | true =>
    rw [checkHTTPServer_skip _ _ _ _ _ hcmd] at h
    simp only [Option.map_some', Option.some.injEq] at h
    omega
  | false =>
    cases hc : (view i).cache (cacheKey proc.PID proc.Port) with
    | some v =>
      rw [checkHTTPServer_hit _ _ _ _ _ v hcmd hc] at h
      simp only [Option.map_some', Option.some.injEq] at h
      rw [← h]
      exact hcache i _ v hc
    | none =>
      cases hp : (view i).doProbe proc.Port with
      | none =>
        rw [checkHTTPServer_panic _ _ _ _ _ hcmd hc hp] at h
        cases h
      | some outcome =>
        rw [checkHTTPServer_miss _ _ _ _ _ outcome hcmd hc hp] at h
        simp only [Option.map_some', Option.some.injEq] at h
        rw [← h]
        apply classifyProbe_nonneg
        intro code hcode
        rw [hcode] at hp
        exact hprobe i proc.Port code hp

theorem launchFrom_eq (view : Nat → GoroutineView) (k : Nat) (procs : List Process)
    (hret : ∀ ip ∈ procs.enumFrom k, goroutineStatus view ip.1 ip.2 ≠ none)
    (hnn : ∀ i p status, goroutineStatus view i p = some status → 0 ≤ status) :
    launchFrom view k procs = some
      (((procs.enumFrom k).filter (fun ip => decide (classification view ip.1 ip.2 ≠ 0))).map
        (fun ip => { ip.2 with StatusCode := classification view ip.1 ip.2 })) := by
  induction procs generalizing k with
  | nil => rfl
  | cons p ps ih =>
    rw [List.enumFrom_cons] at hret
    have ih2 := ih (k + 1) (fun ip h => hret ip (List.mem_cons_of_mem _ h))
    cases hs : goroutineStatus view k p with
    | none => exact absurd hs (hret (k, p) (List.mem_cons_self _ _))
    | some status =>
      have hk := hnn k p status hs
      have hcl : classification view k p = status := by simp [classification, hs]
      unfold launchFrom
      rw [List.enumFrom_cons]
      simp only [hs, ih2]
      by_cases hpos : status > 0
      · have hne : classification view k p ≠ 0 := by rw [hcl]; omega
        rw [if_pos hpos, List.filter_cons_of_pos (by simpa using hne), List.map_cons, hcl]
      · have hz : ¬ classification view k p ≠ 0 := by rw [hcl]; omega
        rw [if_neg hpos, List.filter_cons_of_neg (by simpa using hz)]

theorem launchFrom_sublist (view : Nat → GoroutineView) (k : Nat) (procs : List Process)
    (appended : List Process) (h : launchFrom view k procs = some appended) :
    (appended.map Process.identity).Sublist (procs.map Process.identity) := by
  induction procs generalizing k appended with
  | nil =>
    simp only [launchFrom, Option.some.injEq] at h
    subst h
    exact List.Sublist.slnil
  | cons p ps ih =>
    unfold launchFrom at h
    cases hs : goroutineStatus view k p with
    | none => rw [hs] at h; cases h
    | some status =>
      cases hl : launchFrom view (k + 1) ps with
      | none => rw [hs, hl] at h; cases h
      | some rest =>
        rw [hs, hl] at h
        simp only at h
        have ih2 := ih (k + 1) rest hl
        split at h
        · simp only [Option.some.injEq] at h
          rw [← h]
          exact ih2.cons₂ _
        · simp only [Option.some.injEq] at h
          rw [← h]
          exact ih2.cons _

theorem launchFrom_none_iff (view : Nat → GoroutineView) (k : Nat) (procs : List Process) :
    launchFrom view k procs = none ↔
      ∃ ip ∈ procs.enumFrom k, goroutineStatus view ip.1 ip.2 = none := by
  induction procs generalizing k with
  | nil => simp [launchFrom]
  | cons p ps ih =>
    unfold launchFrom
    rw [List.enumFrom_cons]
    cases hs : goroutineStatus view k p with
    | none => simp [hs]
    | some status =>
      cases hl : launchFrom view (k + 1) ps with
      | none =>
        obtain ⟨ip, hip, hnone⟩ := (ih (k + 1)).mp hl
        simp only [true_iff]
        exact ⟨ip, List.mem_cons_of_mem _ hip, hnone⟩
      | some rest =>
        have hno : ¬ ∃ ip ∈ ps.enumFrom (k + 1), goroutineStatus view ip.1 ip.2 = none := by
          intro hex
          rw [(ih (k + 1)).mpr hex] at hl
          cases hl
        simp only [List.mem_cons, exists_eq_or_imp, hs]
        constructor
        · intro h; split at h <;> cases h
        · intro h
          rcases h with h | h
          · cases h
          · exact absurd h hno

theorem ensureSlots_done (need : Nat) (t : Tray) :
    ¬ (ensureSlots need t).currentMenu.length < need := by
  obtain ⟨added, h1, h2⟩ := ensureSlots_spec need t
  rw [h1, List.length_append, h2]
  omega

theorem checkHTTPServer_cache_frame (doProbe : Str → Option ProbeResult) (cache : Cache)
    (pid command port key : Str) (r : CheckResult) (hkey : key ≠ cacheKey pid port)
    (h : checkHTTPServer doProbe cache pid command port = some r) :
    r.cache key = cache key := by
  cases hcmd : ignoreApps command with
  | true =>
    rw [checkHTTPServer_skip _ _ _ _ _ hcmd] at h
    simp only [Option.some.injEq] at h
    rw [← h]
  | false =>
    cases hc : cache (cacheKey pid port) with
    | some v =>
      rw [checkHTTPServer_hit _ _ _ _ _ v hcmd hc] at h
      simp only [Option.some.injEq] at h
      rw [← h]
    | none =>
      cases hp : doProbe port with
      | none =>
        rw [checkHTTPServer_panic _ _ _ _ _ hcmd hc hp] at h
        cases h
      | some outcome =>
        rw [checkHTTPServer_miss _ _ _ _ _ outcome hcmd hc hp] at h
        simp only [Option.some.injEq] at h
        rw [← h]
        simp [Cache.insert, hkey]

theorem scanTokensAux_no_newline (s cur : Str) (hcur : '\n' ∉ cur) :
    ∀ t ∈ scanTokensAux s cur, '\n' ∉ t := by
  induction s generalizing cur with
  | nil =>
    intro t ht
    unfold scanTokensAux at ht
    split at ht
    · cases ht
    · simp only [List.mem_singleton] at ht
      rw [ht]; simpa using hcur
  | cons c cs ih =>
    intro t ht
    unfold scanTokensAux at ht
    split at ht
    · rcases List.mem_cons.mp ht with h | h
      · rw [h]; simpa using hcur
      · exact ih [] (by simp) t h
    · rename_i hc
      refine ih (c :: cur) ?_ t ht
      intro hm
      rcases List.mem_cons.mp hm with h | h
      · exact hc h.symm
      · exact hcur h

theorem scanTokens_no_newline (s : Str) : ∀ t ∈ scanTokens s, '\n' ∉ t :=
  scanTokensAux_no_newline s [] (by simp)

theorem stringsFieldsAux_fields (s cur : Str) (hcur : ∀ c ∈ cur, isSpace c = false) :
    ∀ f ∈ stringsFieldsAux s cur, f ≠ [] ∧ ∀ c ∈ f, isSpace c = false := by
  induction s generalizing cur with
  | nil =>
    intro f hf
    unfold stringsFieldsAux at hf
    split at hf
    · cases hf
    · rename_i hne
      simp only [List.mem_singleton] at hf
      rw [hf]
      refine ⟨?_, fun c hc => hcur c (List.mem_reverse.mp hc)⟩
      intro h
      apply hne
      simpa using h
  | cons c cs ih =>
    intro f hf
    unfold stringsFieldsAux at hf
    split at hf
    · split at hf
      · exact ih [] (by simp) f hf
      · rename_i hne
        rcases List.mem_cons.mp hf with h | h
        · rw [h]
          refine ⟨?_, fun c hc => hcur c (List.mem_reverse.mp hc)⟩
          intro h2
          apply hne
          simpa using h2
        · exact ih [] (by simp) f h
    · rename_i hsp
      refine ih (c :: cur) ?_ f hf
      intro x hx
      rcases List.mem_cons.mp hx with h | h
      · rw [h]; simpa using hsp
      · exact hcur x h

theorem stringsFields_fields (s : Str) :
    ∀ f ∈ stringsFields s, f ≠ [] ∧ ∀ c ∈ f, isSpace c = false :=
  stringsFieldsAux_fields s [] (by simp)

/-! ## The claims -/

/-- Counterexample to C1. On a text with rows on the ports 5,
99999999999999999999, 9223372036854775809 and 9223372036854775808, in this
order, `parseLsof` returns the four records in the same order (`strconv.Atoi`
gives 5 for the first and the largest `int` for the three others). That order
is not non-decreasing by the integer each port denotes, and not by the value
of `strconv.Atoi` with 0 for a port it reports an error on. -/
theorem parseLsof_order_beyond_int_range :
    parseLsof insertionSorter (fun _ => none) overflowOutput = .ok overflowRecords
    ∧ ¬ overflowRecords.Pairwise (fun a b => integerOrZero a.Port ≤ integerOrZero b.Port)
    ∧ ¬ overflowRecords.Pairwise (fun a b => atoiOrZero a.Port ≤ atoiOrZero b.Port) := by
  refine ⟨?_, by decide, by decide⟩
  rfl

/-- Claim C1, amended. For every input text `parseLsof` either returns the
scanner's error, which happens exactly when some line is
`bufio.MaxScanTokenSize` bytes or longer, or returns records such that: no
line is that long; the records are, up to order, exactly one record per line
after the first that has at least 9 whitespace-separated fields and a colon in
its 9th field, with `Command` field 1, `PID` field 2 and `Port` the substring
of the 9th field after its last colon (`lineRecord`), the other lines
contributing nothing; and the records are in non-decreasing order of the value
`strconv.Atoi` returns for `Port`, its error discarded. That value is the
integer the port denotes brought into the range of a 64-bit `int` when the
port is a decimal integer, and for a port of fewer than 19 bytes it is the
integer the port denotes, 0 when it denotes none. On the input of
`TestParseLsof`, with no working directory found, the result is the three
expected records in the order 3000, 8080, 51912. -/
theorem parseLsof_records (S : SliceSorter) (lsofCwd : Str → Option Str) (output : Str) :
    (match parseLsof S lsofCwd output with
      | .error _ => ∃ line ∈ scanTokens output, maxScanTokenSize ≤ byteLen line
      | .ok procs =>
        (∀ line ∈ scanTokens output, byteLen line < maxScanTokenSize)
        ∧ procs.Perm ((dataLines output).filterMap (lineRecord lsofCwd))
        ∧ procs.Pairwise (fun a b => strconvAtoi a.Port ≤ strconvAtoi b.Port))
    ∧ (∀ (port : Str) (n : Int), readInt port = some n → strconvAtoi port = clampInt n)
    ∧ (∀ port : Str, port.length < 19 → strconvAtoi port = integerOrZero port)
    ∧ parseLsof S (fun _ => none) testOutput = .ok testExpected := by
  refine ⟨?_, strconvAtoi_clamp, strconvAtoi_short, testOutput_sorted S⟩
  rcases parseLsof_cases S lsofCwd output with ⟨h, hl⟩ | ⟨h, hl⟩
  · rw [h]; exact hl
  · rw [h]; exact ⟨hl, S.perm _ _, sortSlice_portLess_sorted S _⟩

/-- Claim C2. For a command that is not on the ignore list and a process id
and port without a cache entry, `checkHTTPServer` returns, and the value it
returns is decided by the probe's outcome: status 401 or 403 gives 0; no error
and status 0 gives 200; no error and any other status gives that status; an
error whose message contains "malformed HTTP response" or "server gave HTTP
response to HTTPS client" gives 200; any other error gives 0. -/
theorem checkHTTPServer_probe_classification
    (doProbe : Str → Option ProbeResult) (cache : Cache) (pid command port : Str)
    (hcmd : ignoreApps command = false)
    (hmiss : cache (cacheKey pid port) = none) :
    let status := (checkHTTPServer doProbe cache pid command port).map (fun r => r.status)
    (∀ code, doProbe port = some (.response code) → code = 401 ∨ code = 403 →
        status = some 0)
    ∧ (doProbe port = some (.response 0) → status = some 200)
    ∧ (∀ code, doProbe port = some (.response code) → code ≠ 0 → code ≠ 401 → code ≠ 403 →
        status = some code)
    ∧ (∀ message, doProbe port = some (.failure message) →
        msgMalformed <:+: message ∨ msgHTTPS <:+: message → status = some 200)
    ∧ (∀ message, doProbe port = some (.failure message) →
        ¬ msgMalformed <:+: message → ¬ msgHTTPS <:+: message → status = some 0) := by
  have key : ∀ outcome, doProbe port = some outcome →
      (checkHTTPServer doProbe cache pid command port).map (fun r => r.status)
        = some (classifyProbe outcome) := by
    intro outcome h
    rw [checkHTTPServer_miss doProbe cache pid command port outcome hcmd hmiss h]
    rfl
  refine ⟨?_, ?_, ?_, ?_, ?_⟩
  · intro code h hc
    rw [key _ h]
    rcases hc with hc | hc <;> subst hc <;>
      simp [classifyProbe, statusForbidden, statusUnauthorized]
  · intro h
    rw [key _ h]
    simp [classifyProbe, statusForbidden, statusUnauthorized]
  · intro code h h0 h1 h3
    rw [key _ h]
    simp [classifyProbe, statusForbidden, statusUnauthorized, h0, h1, h3]
  · intro message h hc
    rw [key _ h]
    have hor : (stringsContains message msgMalformed || stringsContains message msgHTTPS)
        = true := by
      rw [Bool.or_eq_true, stringsContains_iff, stringsContains_iff]; exact hc
    rw [classifyProbe, if_pos hor]
  · intro message h h1 h2
    rw [key _ h]
    have hor : ¬ (stringsContains message msgMalformed || stringsContains message msgHTTPS)
        = true := by
      rw [Bool.or_eq_true, stringsContains_iff, stringsContains_iff]
      exact fun hc => hc.elim h1 h2
    rw [classifyProbe, if_neg hor]

/-- Witness of C2: the command "node" is not ignored, the empty cache has no
entry, and a probe answered with status 403 classifies to 0. -/
theorem checkHTTPServer_probe_classification_witness :
    ignoreApps "node".toList = false
    ∧ (fun _ => none : Cache) (cacheKey "4242".toList "3000".toList) = none
    ∧ (checkHTTPServer (fun _ => some (.response 403)) (fun _ => none)
        "4242".toList "node".toList "3000".toList).map (fun r => r.status) = some 0 :=
  ⟨by decide, rfl,
    (checkHTTPServer_probe_classification (fun _ => some (.response 403)) (fun _ => none)
      "4242".toList "node".toList "3000".toList (by decide) rfl).1 403 rfl (Or.inr rfl)⟩

/-- Claim C3, the code at the failing input. The command "nginx" is not ignored
and the cache is empty; for the port "http" no request can be built
(`http://localhost:http` is no URL), so `client.Do` is called with a nil
request and panics: the first call does not return and writes nothing to the
cache, where the claim has it return a value and cache it. -/
theorem checkHTTPServer_panics_without_request :
    ignoreApps "nginx".toList = false
    ∧ (checkHTTPServer noRequestForHttp (fun _ => none)
        "77".toList "nginx".toList "http".toList).isNone = true
    ∧ (getOpenPorts insertionSorter launchOrder (fun _ => none)
        (fun _ => { cache := fun _ => none, doProbe := noRequestForHttp })
        (.success nonNumericOutput)).isNone = true := by
  refine ⟨by decide, ?_, ?_⟩ <;> rfl

/-- Claim C4. For every list of classified candidates, the list `updateMenu`
presents is the candidates with `StatusCode < 400` in their original order,
followed, exactly when some candidate has `StatusCode >= 400`, by one
separator record (PID "SEP", Port "0") and then the candidates with
`StatusCode >= 400` in their original order; when no candidate has
`StatusCode >= 400` the presented list is the input unchanged. -/
theorem allSortedProcs_grouping (procs : List Process) :
    allSortedProcs procs =
        procs.filter (fun p => decide (p.StatusCode < 400))
          ++ (if ∃ p ∈ procs, 400 ≤ p.StatusCode then
                separator :: procs.filter (fun p => decide (400 ≤ p.StatusCode))
              else [])
    ∧ ((¬ ∃ p ∈ procs, 400 ≤ p.StatusCode) → allSortedProcs procs = procs)
    ∧ separator.PID = "SEP".toList ∧ separator.Port = "0".toList := by
  have key : allSortedProcs procs =
        procs.filter (fun p => decide (p.StatusCode < 400))
          ++ (if ∃ p ∈ procs, 400 ≤ p.StatusCode then
                separator :: procs.filter (fun p => decide (400 ≤ p.StatusCode))
              else []) := by
    unfold allSortedProcs
    simp only [foldl_groupStep, List.nil_append]
    by_cases h : ∃ p ∈ procs, 400 ≤ p.StatusCode
    · have hne : (procs.filter (fun p => decide (400 ≤ p.StatusCode))).length > 0 := by
        obtain ⟨p, hp, h4⟩ := h
        exact List.length_pos_of_mem (List.mem_filter.mpr ⟨hp, by simpa using h4⟩)
      rw [if_pos hne, if_pos h]
      simp
    · have hne : ¬ (procs.filter (fun p => decide (400 ≤ p.StatusCode))).length > 0 := by
        intro hpos
        obtain ⟨p, hp⟩ := List.exists_mem_of_length_pos hpos
        have hmem := List.mem_filter.mp hp
        exact h ⟨p, hmem.1, by simpa using hmem.2⟩
      rw [if_neg hne, if_neg h]
      simp
  refine ⟨key, ?_, rfl, rfl⟩
  intro h
  rw [key, if_neg h, List.append_nil]
  apply List.filter_eq_self.mpr
  intro p hp
  have hlt : ¬ 400 ≤ p.StatusCode := fun h4 => h ⟨p, hp, h4⟩
  simp only [decide_eq_true_eq]
  omega

/-- Witness of C4: the three records of the test, none of them failing, are
presented unchanged, without a separator. -/
theorem allSortedProcs_grouping_witness :
    (¬ ∃ p ∈ testExpected, 400 ≤ p.StatusCode) ∧ allSortedProcs testExpected = testExpected :=
  ⟨by decide, (allSortedProcs_grouping testExpected).2.1 (by decide)⟩

/-- Counterexample to C5. The four parsed records on the ports 5,
99999999999999999999, 9223372036854775809 and 9223372036854775808, each
classified 200 from the cache: `getOpenPorts` returns the four in this order,
which is not non-decreasing by the integer each port denotes, and not by the
value of `strconv.Atoi` with 0 for a port it reports an error on. -/
theorem getOpenPorts_order_beyond_int_range :
    filterServers insertionSorter launchOrder cachedView overflowRecords = some overflowKept
    ∧ getOpenPorts insertionSorter launchOrder (fun _ => none) cachedView
        (.success overflowOutput) = some (.ok overflowKept)
    ∧ ¬ overflowKept.Pairwise (fun a b => integerOrZero a.Port ≤ integerOrZero b.Port)
    ∧ ¬ overflowKept.Pairwise (fun a b => atoiOrZero a.Port ≤ atoiOrZero b.Port) := by
  refine ⟨?_, ?_, by decide, by decide⟩ <;> rfl

/-- Claim C5, amended. For every list of parsed records, whatever each
goroutine finds in the cache and gets from its probe (status codes being
non-negative, so that every classification is) and in whatever order the
goroutines finish: when the classification call of every record returns,
`getOpenPorts` builds a list that contains exactly the records whose
classification is nonzero, each once, each with `StatusCode` set to its
classification and its other fields unchanged, in non-decreasing order of the
value `strconv.Atoi` returns for `Port`, its error discarded (the integer the
port denotes brought into the range of a 64-bit `int` when the port is a
decimal integer; for a port of fewer than 19 bytes the integer it denotes, 0
when it denotes none). That list is what `getOpenPorts` returns when the
enumeration ran and parsed to these records; it returns the empty list when
`lsof` ended with exit code 1 and no output. -/
theorem getOpenPorts_survivors (S : SliceSorter) (I : Interleaving)
    (lsofCwd : Str → Option Str) (view : Nat → GoroutineView) (procs : List Process)
    (hcache : ∀ i key v, (view i).cache key = some v → 0 ≤ v)
    (hprobe : ∀ i port code, (view i).doProbe port = some (.response code) → 0 ≤ code)
    (hreturn : ∀ ip ∈ procs.enum, goroutineStatus view ip.1 ip.2 ≠ none) :
    ∃ kept, filterServers S I view procs = some kept
      ∧ kept.Perm (specSurvivors view procs)
      ∧ kept.Pairwise (fun a b => strconvAtoi a.Port ≤ strconvAtoi b.Port)
      ∧ (∀ (port : Str) (n : Int), readInt port = some n → strconvAtoi port = clampInt n)
      ∧ (∀ port : Str, port.length < 19 → strconvAtoi port = integerOrZero port)
      ∧ (∀ out, parseLsof S lsofCwd out = .ok procs →
          getOpenPorts S I lsofCwd view (.success out) = some (.ok kept))
      ∧ getOpenPorts S I lsofCwd view (.exitError 1 []) = some (.ok []) := by
  have hl := launchFrom_eq view 0 procs hreturn (goroutineStatus_nonneg view hcache hprobe)
  have hf : filterServers S I view procs = some (S.sortSlice portLess (I.arrange
      (((procs.enumFrom 0).filter (fun ip => decide (classification view ip.1 ip.2 ≠ 0))).map
        (fun ip => { ip.2 with StatusCode := classification view ip.1 ip.2 })))) := by
    simp only [filterServers, hl]
  refine ⟨_, hf, ?_, sortSlice_portLess_sorted S _, strconvAtoi_clamp, strconvAtoi_short,
    ?_, by simp [getOpenPorts, byteLen]⟩
  · exact (S.perm _ _).trans (I.perm _)
  · intro out hout
    simp only [getOpenPorts, hout, hf]

/-- Witness of C5: the three records of the test, a cache that holds 0 for
node on port 3000, probes answered with 404, goroutines finishing in reverse
order. Every call returns, and the records on 8080 and 51912 are kept, with
status 404. -/
theorem getOpenPorts_survivors_witness :
    (∀ i key v, (exampleView i).cache key = some v → 0 ≤ v)
    ∧ (∀ i port code, (exampleView i).doProbe port = some (.response code) → 0 ≤ code)
    ∧ (∀ ip ∈ testExpected.enum, goroutineStatus exampleView ip.1 ip.2 ≠ none)
    ∧ (∃ kept, filterServers insertionSorter reverseOrder exampleView testExpected = some kept
        ∧ kept.Perm (specSurvivors exampleView testExpected))
    ∧ (filterServers insertionSorter reverseOrder exampleView testExpected).map
        (fun kept => kept.map (fun p => (p.Port, p.StatusCode)))
      = some [ ("8080".toList, 404), ("51912".toList, 404) ] := by
  have hc : ∀ i key v, (exampleView i).cache key = some v → 0 ≤ v := by
    intro i key v h
    simp only [exampleView, exampleCache] at h
    split at h
    · simp only [Option.some.injEq] at h; omega
    · cases h
  have hp : ∀ i port code, (exampleView i).doProbe port = some (.response code) → 0 ≤ code := by
    intro i port code h
    simp only [exampleView, Option.some.injEq, ProbeResult.response.injEq] at h
    omega
  have hr : ∀ ip ∈ testExpected.enum, goroutineStatus exampleView ip.1 ip.2 ≠ none := by
    intro ip _ hnone
    simp only [goroutineStatus, Option.map_eq_none'] at hnone
    have := (checkHTTPServer_returns_iff _ _ _ _ _).mp hnone
    simp [exampleView] at this
  obtain ⟨kept, h1, h2, _⟩ := getOpenPorts_survivors insertionSorter reverseOrder
    (fun _ => none) exampleView testExpected hc hp hr
  exact ⟨hc, hp, hr, ⟨kept, h1, h2⟩, by decide⟩

/-- Claim C6. Over every sequence of `updateMenu` cycles, successful or failed,
from any state, the number of slots in `currentMenu` never decreases and, after
the sequence, is at least the length of every list presented in it (separator
included); one cycle leaves the number of slots as it is when `getOpenPorts`
failed or the presented list is not longer than the pool, and otherwise makes
the pool exactly as long as the list. -/
theorem currentMenu_grows_only (cycles : List (Except PortsError (List Process)))
    (ports : Except PortsError (List Process)) (t : Tray) :
    t.currentMenu.length ≤ (pollLoop cycles t).currentMenu.length
    ∧ (∀ procs, Except.ok procs ∈ cycles →
        (allSortedProcs procs).length ≤ (pollLoop cycles t).currentMenu.length)
    ∧ (updateMenu ports t).currentMenu.length =
        (match ports with
          | .error _ => t.currentMenu.length
          | .ok procs =>
            if t.currentMenu.length < (allSortedProcs procs).length then
              (allSortedProcs procs).length
            else t.currentMenu.length) := by
  refine ⟨pollLoop_length_mono cycles t, ?_, ?_⟩
  · intro procs hmem
    induction cycles generalizing t with
    | nil => simp at hmem
    | cons c cs ih =>
      rcases List.mem_cons.mp hmem with h | h
      · subst h
        have h1 := updateMenu_length (Except.ok procs) t
        have h2 := pollLoop_length_mono cs (updateMenu (Except.ok procs) t)
        simp only at h1
        show _ ≤ (pollLoop cs (updateMenu (Except.ok procs) t)).currentMenu.length
        omega
      · exact ih (updateMenu c t) h
  · rw [updateMenu_length]
    cases ports with
    | error e => rfl
    | ok procs =>
      simp only
      split <;> omega

/-- Witness of C6: from the empty tray, a cycle presenting four entries (three
candidates and the separator), a failed cycle and a cycle presenting nothing
leave a pool of four slots. -/
theorem currentMenu_grows_only_witness :
    (allSortedProcs exampleCandidates).length = 4
    ∧ (pollLoop [.ok exampleCandidates, .error .run, .ok []] emptyTray).currentMenu.length = 4
    ∧ 4 ≤ (pollLoop [.ok exampleCandidates, .error .run, .ok []] emptyTray).currentMenu.length :=
  ⟨by decide, by decide,
    (currentMenu_grows_only [.ok exampleCandidates, .error .run, .ok []] (.ok []) emptyTray).2.1
      exampleCandidates (by simp)⟩

/-- Claim C7. After a successful `updateMenu` cycle with presented list `L`,
from any prior state: every slot at an index `i < |L|` is bound to `L[i]`, its
parent is shown, and its display state is `specDisplay L[i]`, a function of
`L[i]` alone (a separator: parent disabled, the three sub-controls hidden; a
normal candidate: parent enabled, sub-controls shown, title "[port] command",
with " {in dir}" appended when the working directory is non-empty and, when
`StatusCode >= 400`, the warning marker before and " (HTTP code)" after);
every slot at an index `>= |L|` has its parent hidden and is the slot that was
there before, otherwise untouched; and in a following cycle every slot keeps
its index and its four controls, and is bound to the new list's record at its
index when the new list reaches that far. -/
theorem updateMenu_rebinds_slots (t : Tray) (procs procs₂ : List Process) :
    let L := allSortedProcs procs
    let t₁ := updateMenu (.ok procs) t
    let L₂ := allSortedProcs procs₂
    let t₂ := updateMenu (.ok procs₂) t₁
    (∀ i (h : i < L.length), ∃ slot, t₁.currentMenu[i]? = some slot
        ∧ slot.Proc = L.get ⟨i, h⟩ ∧ slot.Parent.hidden = false
        ∧ slot.display = specDisplay (L.get ⟨i, h⟩))
    ∧ (∀ i slot, L.length ≤ i → t₁.currentMenu[i]? = some slot →
        slot.Parent.hidden = true
        ∧ ∃ old, t.currentMenu[i]? = some old ∧ slot = { old with Parent := old.Parent.Hide })
    ∧ (∀ i slot, t₁.currentMenu[i]? = some slot →
        ∃ slot₂, t₂.currentMenu[i]? = some slot₂ ∧ slot₂.handles = slot.handles
          ∧ ∀ h : i < L₂.length, slot₂.Proc = L₂.get ⟨i, h⟩
              ∧ slot₂.Parent.hidden = false
              ∧ slot₂.display = specDisplay (L₂.get ⟨i, h⟩)) := by
  intro L t₁ L₂ t₂
  have bound : ∀ (t : Tray) (procs : List Process) (i : Nat)
      (h : i < (allSortedProcs procs).length),
      ∃ slot, (updateMenu (.ok procs) t).currentMenu[i]? = some slot
        ∧ slot.Proc = (allSortedProcs procs).get ⟨i, h⟩ ∧ slot.Parent.hidden = false
        ∧ slot.display = specDisplay ((allSortedProcs procs).get ⟨i, h⟩) := by
    intro t procs i h
    obtain ⟨added, h1, h2⟩ := updateMenu_ok_currentMenu procs t
    have hi : i < (t.currentMenu ++ added).length := by
      rw [List.length_append, h2]; omega
    refine ⟨updateSlot (allSortedProcs procs) i ((t.currentMenu ++ added).get ⟨i, hi⟩), ?_,
      updateSlot_bound _ i _ h⟩
    rw [h1, getElem?_updateSlotsFrom, List.getElem?_eq_getElem hi]
    simp
  refine ⟨bound t procs, ?_, ?_⟩
  · intro i slot hi hslot
    obtain ⟨added, h1, h2⟩ := updateMenu_ok_currentMenu procs t
    have hslot2 : (updateSlotsFrom L 0 (t.currentMenu ++ added))[i]? = some slot := by
      rw [← h1]; exact hslot
    rw [getElem?_updateSlotsFrom] at hslot2
    obtain ⟨old, hold, hupd⟩ := optionMap_eq_some.mp hslot2
    have hlt : i < (t.currentMenu ++ added).length := by
      by_contra hnot
      rw [List.getElem?_eq_none (by omega)] at hold
      cases hold
    have hlt2 : i < t.currentMenu.length := by
      rw [List.length_append, h2] at hlt
      have hge : (allSortedProcs procs).length ≤ i := hi
      omega
    rw [List.getElem?_append_left hlt2] at hold
    rw [Nat.zero_add, updateSlot_unbound L i old hi] at hupd
    subst hupd
    exact ⟨rfl, old, hold, rfl⟩
  · intro i slot hslot
    obtain ⟨added, h1, h2⟩ := updateMenu_ok_currentMenu procs₂ t₁
    have hlt : i < t₁.currentMenu.length := by
      by_contra hnot
      rw [List.getElem?_eq_none (by omega)] at hslot
      cases hslot
    have hget : (t₁.currentMenu ++ added)[i]? = some slot := by
      rw [List.getElem?_append_left hlt]; exact hslot
    refine ⟨updateSlot L₂ i slot, ?_, updateSlot_handles _ _ _, ?_⟩
    · show (updateMenu (.ok procs₂) t₁).currentMenu[i]? = _
      rw [h1, getElem?_updateSlotsFrom, hget]
      simp
    · intro h
      exact updateSlot_bound L₂ i slot h

/-- Witness of C7: from the empty tray, the three example candidates fill four
slots in the order 3000, 51912, separator, 8080, the separator's parent
disabled; a following cycle with the first candidate alone leaves slot 0
shown, hides the three others, and keeps the controls of all four. -/
theorem updateMenu_rebinds_slots_witness :
    ((updateMenu (.ok exampleCandidates) emptyTray).currentMenu.map
        (fun slot => (slot.Proc.Port, slot.Parent.disabled, slot.Parent.hidden)))
      = [ ("3000".toList, false, false), ("51912".toList, false, false),
          ("0".toList, true, false), ("8080".toList, false, false) ]
    ∧ ((updateMenu (.ok (exampleCandidates.take 1))
          (updateMenu (.ok exampleCandidates) emptyTray)).currentMenu.map
        (fun slot => slot.Parent.hidden)) = [false, true, true, true]
    ∧ ((updateMenu (.ok (exampleCandidates.take 1))
          (updateMenu (.ok exampleCandidates) emptyTray)).currentMenu.map
        ProcessMenuItem.handles)
      = (updateMenu (.ok exampleCandidates) emptyTray).currentMenu.map
          ProcessMenuItem.handles := by
  refine ⟨by decide, by decide, by decide⟩

/-- Counterexample to C8. On a text with a row whose 9th field is `*:http` and
a row whose 9th field is `*:`, `parseLsof` returns a record for each, one with
the non-numeric port "http" and one with the empty port: these rows are not
dropped. -/
theorem parseLsof_returns_nonNumeric_port :
    parseLsof insertionSorter (fun _ => none) nonNumericOutput = .ok nonNumericRecords
    ∧ nonNumericRecords.map (fun p => isNumeric p.Port) = [false, false] := by
  refine ⟨?_, by decide⟩
  rfl

/-- Claim C8, amended. For every input text `parseLsof` either returns the
scanner's error (some line is `bufio.MaxScanTokenSize` bytes or longer) or
returns records such that: the records are, up to order, exactly one record
per line after the first that has at least 9 fields and a colon in the 9th
(`lineRecord`, which has no test on what follows the colon), repeated lines
giving repeated records; the `Port` of every record is the substring after the
last colon of the 9th field of such a line, whether that substring is numeric
or not; every such line has a record with that port, its field 2 as `PID` and
its field 1 as `Command`, so a row with a non-numeric or empty suffix is kept;
and there are as many records as such lines. -/
theorem parseLsof_port_is_suffix (S : SliceSorter) (lsofCwd : Str → Option Str)
    (output : Str) :
    match parseLsof S lsofCwd output with
    | .error _ => ∃ line ∈ scanTokens output, maxScanTokenSize ≤ byteLen line
    | .ok procs =>
      procs.Perm ((dataLines output).filterMap (lineRecord lsofCwd))
      ∧ (∀ p ∈ procs, ∃ line ∈ dataLines output,
          9 ≤ (stringsFields line).length ∧ ':' ∈ (stringsFields line).getD 8 []
          ∧ p.Port = afterLastColon ((stringsFields line).getD 8 []))
      ∧ (∀ line ∈ dataLines output,
          9 ≤ (stringsFields line).length → ':' ∈ (stringsFields line).getD 8 [] →
          ∃ p ∈ procs, p.Port = afterLastColon ((stringsFields line).getD 8 [])
            ∧ p.PID = (stringsFields line).getD 1 []
            ∧ p.Command = (stringsFields line).getD 0 [])
      ∧ procs.length = ((dataLines output).filter (fun line =>
          decide (9 ≤ (stringsFields line).length
            ∧ ':' ∈ (stringsFields line).getD 8 []))).length := by
  rcases parseLsof_cases S lsofCwd output with ⟨h, hl⟩ | ⟨h, _⟩
  · rw [h]; exact hl
  · rw [h]
    have hperm := S.perm portLess ((dataLines output).filterMap (lineRecord lsofCwd))
    refine ⟨hperm, ?_, ?_, ?_⟩
    · intro p hp
      obtain ⟨line, hline, hrec⟩ := List.mem_filterMap.mp (hperm.mem_iff.mp hp)
      refine ⟨line, hline, ?_⟩
      by_cases hq : 9 ≤ (stringsFields line).length ∧ ':' ∈ (stringsFields line).getD 8 []
      · rw [lineRecord_pos lsofCwd line hq] at hrec
        simp only [Option.some.injEq] at hrec
        exact ⟨hq.1, hq.2, by rw [← hrec]⟩
      · rw [lineRecord_neg lsofCwd line hq] at hrec
        cases hrec
    · intro line hline h9 hcolon
      exact ⟨_, hperm.mem_iff.mpr (List.mem_filterMap.mpr
        ⟨line, hline, lineRecord_pos lsofCwd line ⟨h9, hcolon⟩⟩), rfl, rfl, rfl⟩
    · rw [hperm.length_eq]
      generalize dataLines output = lines
      induction lines with
      | nil => rfl
      | cons l ls ih =>
        by_cases hq : 9 ≤ (stringsFields l).length ∧ ':' ∈ (stringsFields l).getD 8 []
        · rw [List.filterMap_cons_some (lineRecord_pos lsofCwd l hq),
            List.filter_cons_of_pos (by simpa using hq)]
          simp [ih]
        · rw [List.filterMap_cons_none (lineRecord_neg lsofCwd l hq),
            List.filter_cons_of_neg (by simpa using hq)]
          exact ih

/-- Claim C9. For every command in the static ignore set, every process id,
every port, every cache state and whatever a probe would do, `checkHTTPServer`
returns 0 and takes no step at all: no probe, no read of the cache, no write
to it, and the cache is as before. -/
theorem checkHTTPServer_ignored
    (doProbe : Str → Option ProbeResult) (cache : Cache) (pid command port : Str)
    (hcmd : command ∈ ignoreAppsKeys) :
    ∃ r, checkHTTPServer doProbe cache pid command port = some r
      ∧ r.status = 0 ∧ r.trace = [] ∧ r.cache = cache := by
  have h : ignoreApps command = true := by simp [ignoreApps, hcmd]
  exact ⟨_, checkHTTPServer_skip doProbe cache pid command port h, rfl, rfl, rfl⟩

/-- Witness of C9: "Siri" is in the ignore set; with a cache that holds 200
under every key and a server that would answer 200, the call returns 0 and
takes no step. -/
theorem checkHTTPServer_ignored_witness :
    "Siri".toList ∈ ignoreAppsKeys
    ∧ ∃ r, checkHTTPServer (fun _ => some (.response 200)) (fun _ => some 200)
        "4242".toList "Siri".toList "3000".toList = some r
      ∧ r.status = 0 ∧ r.trace = [] :=
  ⟨by decide,
    (checkHTTPServer_ignored (fun _ => some (.response 200)) (fun _ => some 200)
      "4242".toList "Siri".toList "3000".toList (by decide)).elim
      (fun r h => ⟨r, h.1, h.2.1, h.2.2.1⟩)⟩

/-- Counterexample to C10. On a text with an IPv4 row and an IPv6 row of
process 4242 listening on port 3000, `parseLsof` returns two records with the
same process id and port. -/
theorem parseLsof_keeps_duplicate_identity :
    parseLsof insertionSorter (fun _ => none) dualStackOutput = .ok dualStackRecords
    ∧ ¬ (dualStackRecords.map Process.identity).Nodup := by
  refine ⟨?_, by decide⟩
  rfl

/-- Claim C10, amended. The candidate set is not deduplicated: for every input
text `parseLsof` either returns the scanner's error or returns records whose
(process id, port) pairs are, up to order, those of the qualifying lines, one
per line. So no two records share a (process id, port) exactly when no two
qualifying lines do; and when none do, no two of the candidates `getOpenPorts`
keeps share one either, whenever it gets to keep a list. -/
theorem parseLsof_identities (S : SliceSorter) (I : Interleaving)
    (lsofCwd : Str → Option Str) (view : Nat → GoroutineView) (output : Str) :
    match parseLsof S lsofCwd output with
    | .error _ => ∃ line ∈ scanTokens output, maxScanTokenSize ≤ byteLen line
    | .ok procs =>
      (procs.map Process.identity).Perm
          (((dataLines output).filterMap (lineRecord lsofCwd)).map Process.identity)
      ∧ ((procs.map Process.identity).Nodup ↔
          (((dataLines output).filterMap (lineRecord lsofCwd)).map Process.identity).Nodup)
      ∧ ((procs.map Process.identity).Nodup →
          ∀ kept, filterServers S I view procs = some kept →
            (kept.map Process.identity).Nodup) := by
  rcases parseLsof_cases S lsofCwd output with ⟨h, hl⟩ | ⟨h, _⟩
  · rw [h]; exact hl
  · rw [h]
    have hperm := (S.perm portLess ((dataLines output).filterMap (lineRecord lsofCwd))).map
      Process.identity
    refine ⟨hperm, hperm.nodup_iff, ?_⟩
    intro hnd kept hkept
    unfold filterServers at hkept
    cases hl : launchFrom view 0
        (S.sortSlice portLess ((dataLines output).filterMap (lineRecord lsofCwd))) with
    | none => rw [hl] at hkept; cases hkept
    | some appended =>
      rw [hl] at hkept
      simp only [Option.some.injEq] at hkept
      subst hkept
      have h1 : ((S.sortSlice portLess (I.arrange appended)).map Process.identity).Perm
          (appended.map Process.identity) := ((S.perm _ _).trans (I.perm _)).map _
      exact h1.nodup_iff.mpr (hnd.sublist (launchFrom_sublist view 0 _ appended hl))


end MacPortBar
